import Mathlib

/-!
Verification of pynotedb (src/pynotedb/__init__.py and src/pynotedb/utils.py).

Modelling conventions:
* Python strings are `List Char`; a filesystem path is a list of path segments
  (`List (List Char)`), relative to the repository clone root.
* The working tree of a clone is a list of (path, file content) pairs; a path
  "exists" (Python `Path.exists`) when it is a segment-wise prefix of some
  file path (directories are implied by the files below them, matching
  `write_obj`, which creates parent directories with `mkdir(parents=True)`).
* Fallible Python code (raising exceptions) is embedded with `Option`/error
  values; `try_action`'s bare `except` becomes a total function on results.
-/

set_option autoImplicit false

namespace Pynotedb

/-! ### Generic list helpers (Python `str.startswith`, `in`, `split`, `join`) -/

/-- `startsWith p s` holds when `s` begins with `p` (Python `s.startswith(p)`;
also used segment-wise for `Path.exists` prefix tests). -/
def startsWith {α : Type} [DecidableEq α] : List α → List α → Bool
  | [], _ => true
  | _ :: _, [] => false
  | p :: ps, c :: cs => if p = c then startsWith ps cs else false

/-- `containsSub p s` holds when `p` occurs contiguously inside `s`
(Python `p in s` for strings). -/
def containsSub {α : Type} [DecidableEq α] (p : List α) : List α → Bool
  | [] => startsWith p []
  | c :: cs => startsWith p (c :: cs) || containsSub p cs

/-- Python `s.split(sep)` for a one-character separator. -/
def splitOnChar (sep : Char) : List Char → List (List Char)
  | [] => [[]]
  | c :: rest =>
    match splitOnChar sep rest with
    | [] => [[]]
    | h :: t => if c = sep then [] :: h :: t else (c :: h) :: t

/-- Python `sep.join(parts)` for a one-character separator. -/
def joinChar (sep : Char) : List (List Char) → List Char
  | [] => []
  | [x] => x
  | x :: y :: rest => x ++ sep :: joinChar sep (y :: rest)

theorem startsWith_nil {α : Type} [DecidableEq α] (s : List α) :
    startsWith ([] : List α) s = true := by
  cases s <;> rfl

theorem startsWith_cons {α : Type} [DecidableEq α] (p : α) (ps s : List α) :
    startsWith (p :: ps) s =
      match s with
      | [] => false
      | c :: cs => if p = c then startsWith ps cs else false := by
  cases s <;> rfl

theorem startsWith_iff {α : Type} [DecidableEq α] (p s : List α) :
    startsWith p s = true ↔ ∃ t, s = p ++ t := by
  induction p generalizing s with
  | nil => simp [startsWith_nil]
  | cons a ps ih =>
    cases s with
    | nil =>
      constructor
      · intro h; simp [startsWith] at h
      · rintro ⟨t, ht⟩; simp at ht
    | cons c cs =>
      by_cases hac : a = c
      · subst hac
        constructor
        · intro h
          have h' : startsWith ps cs = true := by simpa [startsWith] using h
          rcases (ih cs).1 h' with ⟨t, ht⟩
          exact ⟨t, by rw [ht]; rfl⟩
        · rintro ⟨t, ht⟩
          injection ht with h1 h2
          have h' := (ih cs).2 ⟨t, h2⟩
          simpa [startsWith] using h'
      · constructor
        · intro h; rw [startsWith, if_neg hac] at h; cases h
        · rintro ⟨t, ht⟩
          injection ht with h1 h2
          exact absurd h1.symm hac

theorem startsWith_refl {α : Type} [DecidableEq α] (l : List α) :
    startsWith l l = true :=
  (startsWith_iff l l).2 ⟨[], by simp⟩

theorem startsWith_append {α : Type} [DecidableEq α] (p t : List α) :
    startsWith p (p ++ t) = true :=
  (startsWith_iff p (p ++ t)).2 ⟨t, rfl⟩

theorem startsWith_cancel {α : Type} [DecidableEq α] (a x y : List α) :
    startsWith (a ++ x) (a ++ y) = startsWith x y := by
  induction a with
  | nil => rfl
  | cons c a ih => simp [startsWith, ih]

theorem startsWith_length_le {α : Type} [DecidableEq α] {p s : List α}
    (h : startsWith p s = true) : p.length ≤ s.length := by
  rcases (startsWith_iff p s).1 h with ⟨t, rfl⟩
  simp

/-! ### The sharded content-addressed path codec
(`lookup_sha_nest`, `nest_sha` in `src/pynotedb/__init__.py`). -/

/-- A path segment (one directory or file name). -/
abbrev Seg := List Char

/-- A filesystem path as a list of segments relative to the clone root. -/
abbrev FPath := List Seg

/-- A set of existing files, each given by its path. -/
abbrev FS := List FPath

/-- Python `Path.exists()` over the file set `fs`: the probed path is a file of
`fs` or a directory implied by one (segment-wise prefix). -/
def pathExists (fs : FS) (p : FPath) : Bool :=
  fs.any (fun f => startsWith p f)

/-- `lookup_sha_nest(root, sha, acc)`: count the nesting level for a given sha,
probing `root/sha`, then `root/sha[:2]/sha[2:]`, ...; `none` when not found
(the sha ran out). For a one-character sha the recursive call
`lookup_sha_nest(root / sha, "", acc + 1)` immediately returns `None`; that
step is inlined here so the recursion is structural. -/
def lookup_sha_nest (fs : FS) : FPath → List Char → Nat → Option Nat
  | _, [], _ => none
  | root, [c], acc =>
    if pathExists fs (root ++ [[c]]) then some acc else none
  | root, c1 :: c2 :: cs, acc =>
    if pathExists fs (root ++ [c1 :: c2 :: cs]) then some acc
    else lookup_sha_nest fs (root ++ [[c1, c2]]) cs (acc + 1)

/-- `nest_sha(root, sha, nest)`: split a sha for a given nesting level. -/
def nest_sha (root : FPath) (sha : List Char) : Nat → FPath
  | 0 => root ++ [sha]
  | n + 1 => nest_sha (root ++ [sha.take 2]) (sha.drop 2) n

/-- The segments `nest_sha` appends below `root`. -/
def shaSegs (sha : List Char) : Nat → FPath
  | 0 => [sha]
  | n + 1 => sha.take 2 :: shaSegs (sha.drop 2) n

theorem nest_sha_eq_append (sha : List Char) (n : Nat) :
    ∀ root : FPath, nest_sha root sha n = root ++ shaSegs sha n := by
  induction n generalizing sha with
  | zero => intro root; rfl
  | succ n ih =>
    intro root
    show nest_sha (root ++ [sha.take 2]) (sha.drop 2) n = _
    rw [ih (sha.drop 2) (root ++ [sha.take 2])]
    simp [shaSegs]

theorem lookup_sha_nest_single (sha : List Char) (n : Nat) :
    ∀ (root : FPath) (acc : Nat), 2 * n + 1 ≤ sha.length →
      lookup_sha_nest [nest_sha root sha n] root sha acc = some (acc + n) := by
  induction n generalizing sha with
  | zero =>
    intro root acc hlen
    match sha, hlen with
    | [c], _ =>
      have hex : pathExists [nest_sha root [c] 0] (root ++ [[c]]) = true := by
        simp [pathExists, nest_sha, startsWith_refl]
      rw [lookup_sha_nest, if_pos hex]
      rfl
    | c1 :: c2 :: cs, _ =>
      have hex : pathExists [nest_sha root (c1 :: c2 :: cs) 0]
          (root ++ [c1 :: c2 :: cs]) = true := by
        simp [pathExists, nest_sha, startsWith_refl]
      rw [lookup_sha_nest, if_pos hex]
      rfl
  | succ n ih =>
    intro root acc hlen
    match sha, hlen with
    | c1 :: c2 :: cs, hlen =>
      have heq : ¬ (c1 :: c2 :: cs) = [c1, c2] := by
        intro h
        have hl := congrArg List.length h
        simp only [List.length_cons, List.length_nil] at hl hlen
        omega
      have hprobe : pathExists [nest_sha root (c1 :: c2 :: cs) (n + 1)]
          (root ++ [c1 :: c2 :: cs]) = false := by
        simp only [pathExists, List.any_cons, List.any_nil, Bool.or_false]
        rw [nest_sha_eq_append]
        have hsegs : root ++ shaSegs (c1 :: c2 :: cs) (n + 1)
            = root ++ ([[c1, c2]] ++ shaSegs cs n) := rfl
        rw [hsegs, startsWith_cancel root]
        have hunfold : startsWith [c1 :: c2 :: cs] ([[c1, c2]] ++ shaSegs cs n)
            = if (c1 :: c2 :: cs) = [c1, c2]
              then startsWith ([] : FPath) (shaSegs cs n)
              else false := rfl
        rw [hunfold, if_neg heq]
      rw [lookup_sha_nest, if_neg (by simp [hprobe])]
      have hstep : nest_sha root (c1 :: c2 :: cs) (n + 1)
          = nest_sha (root ++ [[c1, c2]]) cs n := rfl
      rw [hstep]
      have hlen2 : 2 * n + 1 ≤ cs.length := by
        simp only [List.length_cons] at hlen
        omega
      rw [ih cs (root ++ [[c1, c2]]) (acc + 1) hlen2]
      congr 1
      omega

theorem lookup_sha_nest_empty (k : Nat) :
    ∀ (sha : List Char) (root : FPath) (acc : Nat), sha.length ≤ k →
      lookup_sha_nest [] root sha acc = none := by
  induction k with
  | zero =>
    intro sha root acc hk
    match sha, hk with
    | [], _ => rfl
  | succ k ih =>
    intro sha root acc hk
    match sha with
    | [] => rfl
    | [c] => rw [lookup_sha_nest, if_neg (by simp [pathExists])]
    | c1 :: c2 :: cs =>
      rw [lookup_sha_nest, if_neg (by simp [pathExists])]
      exact ih _ _ _ (by simp at hk ⊢; omega)

/-! ### Ref construction and shard inversion
(`mk_ref_id`, `mk_ref`, `mk_user_ref`, `mk_group_ref`, `invert_ref_id`). -/

/-- `mk_ref_id(refname)`: create a gerrit `CD/ABCD` name; the Python code
raises `IndexError` (here `none`) on the empty string, from `refname[-1]`. -/
def mk_ref_id (refname : List Char) : Option (List Char) :=
  match refname with
  | [] => none
  | c :: cs =>
    let refid :=
      if 1 < (c :: cs).length then (c :: cs).drop ((c :: cs).length - 2)
      else ['0', (c :: cs).getLast (by simp)]
    some (refid ++ '/' :: (c :: cs))

/-- `mk_ref(name)(refname) = "refs/" + name + "/" + mk_ref_id(refname)`. -/
def mk_ref (name : List Char) (refname : List Char) : Option (List Char) :=
  (mk_ref_id refname).map (fun refid => ("refs/".toList ++ name) ++ '/' :: refid)

/-- `mk_user_ref(user)`. -/
def mk_user_ref (user : List Char) : Option (List Char) :=
  mk_ref "users".toList user

/-- `mk_group_ref(group)`. -/
def mk_group_ref (group : List Char) : Option (List Char) :=
  mk_ref "groups".toList group

/-- `invert_ref_id(ref)`: split on `/`; the Python tuple unpacking
`r, g, _, i = ref.split('/')` raises (here `none`) unless there are exactly
four segments; rebuild with the shard recomputed as `i[:2]`. -/
def invert_ref_id (ref : List Char) : Option (List Char) :=
  match splitOnChar '/' ref with
  | [r, g, _, i] => some (joinChar '/' [r, g, i.take 2, i])
  | _ => none

theorem splitOnChar_ne_nil (sep : Char) (s : List Char) :
    splitOnChar sep s ≠ [] := by
  cases s with
  | nil => simp [splitOnChar]
  | cons c rest =>
    rw [splitOnChar]
    cases h : splitOnChar sep rest with
    | nil => simp
    | cons h t => by_cases hc : c = sep <;> simp [hc]

theorem splitOnChar_free (sep : Char) (x : List Char) (hx : sep ∉ x) :
    splitOnChar sep x = [x] := by
  induction x with
  | nil => rfl
  | cons c cs ih =>
    have hc : ¬ c = sep := fun h => hx (by simp [h])
    have hcs : sep ∉ cs := fun h => hx (List.mem_cons_of_mem _ h)
    rw [splitOnChar, ih hcs]
    simp [hc]

theorem splitOnChar_append_sep (sep : Char) (x t : List Char) (hx : sep ∉ x) :
    splitOnChar sep (x ++ sep :: t) = x :: splitOnChar sep t := by
  induction x with
  | nil =>
    rw [List.nil_append, splitOnChar]
    cases h : splitOnChar sep t with
    | nil => exact absurd h (splitOnChar_ne_nil sep t)
    | cons a b => simp
  | cons c cs ih =>
    have hc : ¬ c = sep := fun h => hx (by simp [h])
    have hcs : sep ∉ cs := fun h => hx (List.mem_cons_of_mem _ h)
    rw [List.cons_append, splitOnChar, ih hcs]
    simp [hc]

theorem splitOnChar_joinChar (sep : Char) :
    ∀ ls : List (List Char), ls ≠ [] → (∀ l ∈ ls, sep ∉ l) →
      splitOnChar sep (joinChar sep ls) = ls := by
  intro ls
  induction ls with
  | nil => intro h; exact absurd rfl h
  | cons x rest ih =>
    intro _ hfree
    cases rest with
    | nil => exact splitOnChar_free sep x (hfree x (by simp))
    | cons y rest2 =>
      rw [joinChar, splitOnChar_append_sep sep x _ (hfree x (by simp))]
      rw [ih (by simp) (fun l hl => hfree l (List.mem_cons_of_mem _ hl))]

end Pynotedb

namespace Pynotedb

/-! ### Claims C1-C3 -/

/-- Example 40-character (sha1-sized) hex key used by witnesses. -/
def sha40ex : List Char := "0123456789abcdef0123456789abcdef01234567".toList

/-- C1: content-addressed path round trip: for every root, every nest in
{0,1,2,3} and every key long enough to be split, after writing a file at the
path `nest_sha root key nest` into an otherwise-empty store,
`lookup_sha_nest root key 0` returns exactly `nest`; and when no file for the
key exists at any probed depth (empty store), it returns the not-found
sentinel `none`, which is distinct from depth 0 (`some 0`). -/
theorem C1_sharded_path_roundtrip (root : FPath) (key : List Char) (nest : Nat)
    (_hnest : nest ≤ 3) (hlen : 2 * nest + 1 ≤ key.length) :
    lookup_sha_nest [nest_sha root key nest] root key 0 = some nest
    ∧ lookup_sha_nest [] root key 0 = none
    ∧ lookup_sha_nest [] root key 0 ≠ some 0 := by
  have h1 := lookup_sha_nest_single key nest root 0 hlen
  have h2 := lookup_sha_nest_empty key.length key root 0 le_rfl
  refine ⟨by simpa using h1, h2, ?_⟩
  rw [h2]
  simp

/-- Witness for C1 at a concrete 40-character key and nest 2. -/
theorem C1_sharded_path_roundtrip_witness :
    lookup_sha_nest [nest_sha [] sha40ex 2] [] sha40ex 0 = some 2
    ∧ lookup_sha_nest [] [] sha40ex 0 = none
    ∧ lookup_sha_nest [] [] sha40ex 0 ≠ some 0 :=
  C1_sharded_path_roundtrip [] sha40ex 2 (by decide) (by decide)

/-- C2: for every non-empty id, if the id has length at least 2 the shard is
its last two characters and `mk_ref_id id = id[-2:] ++ "/" ++ id` (the shard
`id.drop (id.length - 2)` has length 2 and is a suffix of `id`); if the id has
length 1 then `mk_ref_id id = "0" ++ id ++ "/" ++ id`; for every kind,
`mk_ref kind id = "refs/" ++ kind ++ "/" ++ mk_ref_id id`; and on the empty
string the operation fails (`none`). -/
theorem C2_shard_and_mk_ref (id kind : List Char) :
    (2 ≤ id.length →
      mk_ref_id id = some (id.drop (id.length - 2) ++ '/' :: id)
      ∧ (id.drop (id.length - 2)).length = 2
      ∧ id.take (id.length - 2) ++ id.drop (id.length - 2) = id)
    ∧ (id.length = 1 → mk_ref_id id = some ('0' :: id ++ '/' :: id))
    ∧ mk_ref kind id
        = (mk_ref_id id).map (fun refid => ("refs/".toList ++ kind) ++ '/' :: refid)
    ∧ mk_ref_id [] = none := by
  refine ⟨?_, ?_, rfl, rfl⟩
  · intro hlen
    match id, hlen with
    | c :: cs, hlen =>
      have hgt : 1 < (c :: cs).length := by simpa using hlen
      refine ⟨?_, ?_, List.take_append_drop _ _⟩
      · rw [mk_ref_id]
        simp only [if_pos hgt]
      · rw [List.length_drop]
        simp only [List.length_cons] at hlen ⊢
        omega
  · intro hlen
    match id, hlen with
    | [c], _ =>
      rw [mk_ref_id]
      simp [List.getLast]

/-- Witness for C2 at the doctest inputs `"41242"` and `"1"`. -/
theorem C2_shard_and_mk_ref_witness :
    mk_ref_id "41242".toList
      = some (("41242".toList).drop (("41242".toList).length - 2) ++ '/' :: "41242".toList)
    ∧ mk_ref_id "1".toList = some ('0' :: "1".toList ++ '/' :: "1".toList) :=
  ⟨((C2_shard_and_mk_ref "41242".toList "users".toList).1 (by decide)).1,
   (C2_shard_and_mk_ref "1".toList "users".toList).2.1 (by decide)⟩

/-- C3: for every 4-segment ref `refs/<kind>/<shard>/<id>` with id of length
at least 2 (segments slash-free), `invert_ref_id` returns
`refs/<kind>/<id[:2]>/<id>`, discarding the input shard and recomputing it
from the first two characters of the id; and `invert_ref_id` of its own
result is that same result (so `invert_ref_id ∘ invert_ref_id =
invert_ref_id` on such refs). -/
theorem C3_invert_ref_id (kind shard id : List Char)
    (hk : ('/' : Char) ∉ kind) (hs : ('/' : Char) ∉ shard)
    (hi : ('/' : Char) ∉ id) (hlen : 2 ≤ id.length) :
    invert_ref_id (joinChar '/' ["refs".toList, kind, shard, id])
      = some (joinChar '/' ["refs".toList, kind, id.take 2, id])
    ∧ (id.take 2).length = 2
    ∧ ∀ r, invert_ref_id (joinChar '/' ["refs".toList, kind, shard, id]) = some r →
        invert_ref_id r = some r := by
  have hrefs : ('/' : Char) ∉ "refs".toList := by decide
  have hi2 : ('/' : Char) ∉ id.take 2 := fun h => hi (List.take_subset 2 id h)
  have hsplit : splitOnChar '/' (joinChar '/' ["refs".toList, kind, shard, id])
      = ["refs".toList, kind, shard, id] := by
    apply splitOnChar_joinChar
    · simp
    · intro l hl
      simp only [List.mem_cons, List.not_mem_nil, or_false] at hl
      rcases hl with rfl | rfl | rfl | h
      · exact hrefs
      · exact hk
      · exact hs
      · rw [h]
        exact hi
  have hmain : invert_ref_id (joinChar '/' ["refs".toList, kind, shard, id])
      = some (joinChar '/' ["refs".toList, kind, id.take 2, id]) := by
    rw [invert_ref_id, hsplit]
  refine ⟨hmain, ?_, ?_⟩
  · rw [List.length_take]
    omega
  · intro r hr
    rw [hmain] at hr
    injection hr with hr
    subst hr
    have hsplit2 : splitOnChar '/' (joinChar '/' ["refs".toList, kind, id.take 2, id])
        = ["refs".toList, kind, id.take 2, id] := by
      apply splitOnChar_joinChar
      · simp
      · intro l hl
        simp only [List.mem_cons, List.not_mem_nil, or_false] at hl
        rcases hl with rfl | rfl | rfl | h
        · exact hrefs
        · exact hk
        · exact hi2
        · rw [h]
          exact hi
    rw [invert_ref_id, hsplit2]

/-- Witness for C3 at the doctest ref `refs/groups/CD/ABCD`. -/
theorem C3_invert_ref_id_witness :
    invert_ref_id (joinChar '/' ["refs".toList, "groups".toList, "CD".toList, "ABCD".toList])
      = some (joinChar '/' ["refs".toList, "groups".toList, ("ABCD".toList).take 2, "ABCD".toList]) :=
  (C3_invert_ref_id "groups".toList "CD".toList "ABCD".toList
    (by decide) (by decide) (by decide) (by decide)).1

/-! ### Working trees: files with contents -/

/-- A working tree: the files of a clone with their text contents.
Directories are implicit (compare `pathExists`). -/
abbrev Tree := List (FPath × List Char)

/-- Read a file (`Path.read_text`), `none` when the file does not exist. -/
def treeFind : Tree → FPath → Option (List Char)
  | [], _ => none
  | e :: rest, p => if e.1 = p then some e.2 else treeFind rest p

/-- Does a file exist at exactly this path? -/
def treeHas (t : Tree) (p : FPath) : Bool :=
  t.any (fun e => decide (e.1 = p))

/-- Write a file (`Path.write_text`): overwrite in place (first occurrence),
or append a new file at the end of the listing. -/
def treeWrite : Tree → FPath → List Char → Tree
  | [], p, c => [(p, c)]
  | e :: rest, p, c => if e.1 = p then (p, c) :: rest else e :: treeWrite rest p c

/-- The paths of all files of the tree. -/
def treePaths (t : Tree) : FS := t.map (fun e => e.1)

theorem treeFind_write_self (t : Tree) (p : FPath) (c : List Char) :
    treeFind (treeWrite t p c) p = some c := by
  induction t with
  | nil => simp [treeWrite, treeFind]
  | cons a rest ih =>
    rw [treeWrite]
    by_cases hap : a.1 = p
    · rw [if_pos hap, treeFind, if_pos rfl]
    · rw [if_neg hap, treeFind, if_neg hap]
      exact ih

theorem treeFind_write_other (t : Tree) (p q : FPath) (c : List Char)
    (hne : q ≠ p) : treeFind (treeWrite t p c) q = treeFind t q := by
  induction t with
  | nil =>
    have hpq : ¬ (p = q) := fun hh => hne hh.symm
    simp [treeWrite, treeFind, hpq]
  | cons a rest ih =>
    rw [treeWrite]
    by_cases hap : a.1 = p
    · have hpq : ¬ (p = q) := fun hh => hne hh.symm
      have haq : ¬ (a.1 = q) := by rw [hap]; exact hpq
      rw [if_pos hap, treeFind, treeFind, if_neg hpq, if_neg haq]
    · rw [if_neg hap, treeFind, treeFind]
      by_cases haq : a.1 = q
      · rw [if_pos haq, if_pos haq]
      · rw [if_neg haq, if_neg haq]
        exact ih

/-- Writing back a file's own current content leaves the tree unchanged. -/
theorem treeWrite_same (t : Tree) (p : FPath) (c : List Char)
    (h : treeFind t p = some c) : treeWrite t p c = t := by
  induction t with
  | nil => cases h
  | cons a rest ih =>
    rw [treeFind] at h
    rw [treeWrite]
    by_cases hap : a.1 = p
    · rw [if_pos hap] at h ⊢
      injection h with h
      rcases a with ⟨a1, a2⟩
      simp only at hap h
      rw [hap, h]
    · rw [if_neg hap] at h ⊢
      rw [ih h]

/-! ### External-id records (`show_external_id`, `write_obj`, `write_sha_obj`,
`write_gerrit_username_id_files`) -/

/-- `scheme_gerrit = ExternalScheme('gerrit')`. -/
def scheme_gerrit : List Char := "gerrit".toList

/-- `scheme_keycloak = ExternalScheme('keycloak-oauth')`. -/
def scheme_keycloak : List Char := "keycloak-oauth".toList

/-- `scheme_username = ExternalScheme('username')`. -/
def scheme_username : List Char := "username".toList

/-- `scheme_mail = ExternalScheme('mailto')`. -/
def scheme_mail : List Char := "mailto".toList

/-- The sha1 hex digest function, kept abstract: theorems quantify over it
(where needed they assume its digests are 40 characters long, or that two
distinct inputs give distinct digests, as sha1 does on the inputs at hand). -/
abbrev Hash := List Char → List Char

/-- `show_external_id(scheme, username, account_id)`: the three content lines
of an external id file. -/
def show_external_id (scheme username account_id : List Char) : List (List Char) :=
  [ "[externalId \"".toList ++ scheme ++ ':' :: username ++ "\"]".toList,
    "\taccountId = ".toList ++ account_id,
    [] ]

/-- `write_obj(file_path, file_content)`: ensure the parent directory exists
(implicit here) and write `"\n".join(file_content)`. -/
def write_obj (t : Tree) (p : FPath) (content : List (List Char)) : Tree :=
  treeWrite t p (joinChar '\n' content)

/-- `write_sha_obj(root, sha, nest, file_content)`. -/
def write_sha_obj (t : Tree) (root : FPath) (sha : List Char) (nest : Nat)
    (content : List (List Char)) : Tree :=
  write_obj t (nest_sha root sha nest) content

/-- `write_gerrit_username_id_files(all_users, username, account_id, scheme)`:
look up the nest level of the `username:` external id (creating it at nest 1
if absent), then write the desired scheme's external id at that nest level.
The tree is the working tree of the `all_users` clone (root path `[]`). -/
def write_gerrit_username_id_files (sha1sum : Hash) (t : Tree)
    (username account_id scheme : List Char) : Tree :=
  let http_sha := sha1sum (scheme_username ++ ':' :: username)
  match lookup_sha_nest (treePaths t) [] http_sha 0 with
  | none =>
    let t1 := write_sha_obj t [] http_sha 1
      (show_external_id scheme_username username account_id)
    write_sha_obj t1 [] (sha1sum (scheme ++ ':' :: username)) 1
      (show_external_id scheme username account_id)
  | some nest =>
    write_sha_obj t [] (sha1sum (scheme ++ ':' :: username)) nest
      (show_external_id scheme username account_id)

theorem shaSegs_inj (n : Nat) :
    ∀ s1 s2 : List Char, shaSegs s1 n = shaSegs s2 n → s1 = s2 := by
  induction n with
  | zero =>
    intro s1 s2 h
    rw [shaSegs, shaSegs] at h
    injection h
  | succ n ih =>
    intro s1 s2 h
    rw [shaSegs, shaSegs] at h
    injection h with h1 h2
    have h3 := ih _ _ h2
    rw [← List.take_append_drop 2 s1, ← List.take_append_drop 2 s2, h1, h3]

theorem nest_sha_inj (root : FPath) (n : Nat) (s1 s2 : List Char)
    (h : nest_sha root s1 n = nest_sha root s2 n) : s1 = s2 := by
  rw [nest_sha_eq_append, nest_sha_eq_append] at h
  exact shaSegs_inj n s1 s2 (by simpa using h)

/-- C4: identity-write depth inheritance. If no file for
`sha1("username:" + name)` exists at any nesting depth (the probe returns
`none`), `write_gerrit_username_id_files` writes both the username-scheme
record and the requested-scheme record at nesting depth 1; if the
username-scheme probe finds depth `n`, the requested-scheme record is written
at that same depth `n` and every other file (in particular the existing
username-scheme record) is left unchanged. -/
theorem C4_identity_write_depth (sha1sum : Hash) (t : Tree)
    (username account_id scheme : List Char) :
    (lookup_sha_nest (treePaths t) [] (sha1sum (scheme_username ++ ':' :: username)) 0 = none →
      sha1sum (scheme_username ++ ':' :: username) ≠ sha1sum (scheme ++ ':' :: username) →
      treeFind (write_gerrit_username_id_files sha1sum t username account_id scheme)
          (nest_sha [] (sha1sum (scheme_username ++ ':' :: username)) 1)
        = some (joinChar '\n' (show_external_id scheme_username username account_id))
      ∧ treeFind (write_gerrit_username_id_files sha1sum t username account_id scheme)
          (nest_sha [] (sha1sum (scheme ++ ':' :: username)) 1)
        = some (joinChar '\n' (show_external_id scheme username account_id)))
    ∧ (∀ n, lookup_sha_nest (treePaths t) [] (sha1sum (scheme_username ++ ':' :: username)) 0 = some n →
      treeFind (write_gerrit_username_id_files sha1sum t username account_id scheme)
          (nest_sha [] (sha1sum (scheme ++ ':' :: username)) n)
        = some (joinChar '\n' (show_external_id scheme username account_id))
      ∧ ∀ p, p ≠ nest_sha [] (sha1sum (scheme ++ ':' :: username)) n →
          treeFind (write_gerrit_username_id_files sha1sum t username account_id scheme) p
            = treeFind t p) := by
  constructor
  · intro hnone hne
    have hpath : nest_sha [] (sha1sum (scheme_username ++ ':' :: username)) 1
        ≠ nest_sha [] (sha1sum (scheme ++ ':' :: username)) 1 :=
      fun h => hne (nest_sha_inj [] 1 _ _ h)
    rw [write_gerrit_username_id_files]
    simp only [hnone]
    constructor
    · rw [write_sha_obj, write_obj,
        treeFind_write_other _ _ _ _ hpath]
      exact treeFind_write_self _ _ _
    · exact treeFind_write_self _ _ _
  · intro n hsome
    rw [write_gerrit_username_id_files]
    simp only [hsome]
    exact ⟨treeFind_write_self _ _ _, fun p hp => treeFind_write_other _ _ _ _ hp⟩

/-- The identity used to instantiate the abstract hash in witnesses. -/
def hashId : Hash := fun s => s

/-- Witness for C4: a fresh store gets both records at depth 1; a store whose
username record is at depth 0 gets the new scheme's record at depth 0. -/
theorem C4_identity_write_depth_witness :
    (treeFind (write_gerrit_username_id_files hashId [] "admin".toList "1".toList scheme_gerrit)
        (nest_sha [] (hashId (scheme_username ++ ':' :: "admin".toList)) 1)
      = some (joinChar '\n' (show_external_id scheme_username "admin".toList "1".toList))
    ∧ treeFind (write_gerrit_username_id_files hashId [] "admin".toList "1".toList scheme_gerrit)
        (nest_sha [] (hashId (scheme_gerrit ++ ':' :: "admin".toList)) 1)
      = some (joinChar '\n' (show_external_id scheme_gerrit "admin".toList "1".toList)))
    ∧ treeFind
        (write_gerrit_username_id_files hashId [(["username:admin".toList], "x".toList)]
          "admin".toList "1".toList scheme_gerrit)
        (nest_sha [] (hashId (scheme_gerrit ++ ':' :: "admin".toList)) 0)
      = some (joinChar '\n' (show_external_id scheme_gerrit "admin".toList "1".toList)) :=
  ⟨(C4_identity_write_depth hashId [] "admin".toList "1".toList scheme_gerrit).1
      (by decide) (by decide),
   ((C4_identity_write_depth hashId [(["username:admin".toList], "x".toList)]
      "admin".toList "1".toList scheme_gerrit).2 0 (by decide)).1⟩

/-! ### Config-file parsing (`read_items`, `read_group_name_uid`,
`read_user_name`) -/

/-- Python whitespace for `str.strip()`. -/
def pySpace (c : Char) : Bool :=
  c = ' ' || c = '\t' || c = '\n' || c = '\r' || c = '\x0b' || c = '\x0c'

/-- Python `str.strip()`. -/
def pyStrip (s : List Char) : List Char :=
  ((s.dropWhile pySpace).reverse.dropWhile pySpace).reverse

/-- Python `s.split("=", 1)`. -/
def splitEq1 (s : List Char) : List (List Char) :=
  if ('=' : Char) ∈ s then
    [s.takeWhile (fun c => !decide (c = '=')),
     (s.dropWhile (fun c => !decide (c = '='))).drop 1]
  else [s]

/-- `read_items(lines)`: the key/value pairs of a git config file; keeps the
lines that split into exactly two parts around the first `=`. -/
def read_items (lines : List (List Char)) : List (List Char × List Char) :=
  (lines.map (fun s => (splitEq1 s).map pyStrip)).filterMap
    (fun elems =>
      match elems with
      | [k, v] => some (k, v)
      | _ => none)

/-- `read_group_name_uid(group_file)`: the name and uuid of a group config
file; the loop keeps the last `name =` and `uuid =` values, and the result is
returned only when both are non-empty (Python truthiness). -/
def read_group_name_uid (content : List Char) : Option (List Char × List Char) :=
  let items := read_items (splitOnChar '\n' content)
  let name := items.foldl
    (fun acc kv => if kv.1 = "name".toList then some kv.2 else acc) none
  let uid := items.foldl
    (fun acc kv => if kv.1 = "uuid".toList then some kv.2 else acc) none
  match name, uid with
  | some n, some u => if n ≠ [] ∧ u ≠ [] then some (n, u) else none
  | _, _ => none

/-- `read_user_name(user_file)`: the first `fullName =` value, if any. -/
def read_user_name (content : List Char) : Option (List Char) :=
  ((read_items (splitOnChar '\n' content)).find?
    (fun kv => decide (kv.1 = "fullName".toList))).map (fun kv => kv.2)

/-! ### The remote repository and the transaction protocol -/

/-- `refs/meta/config`. -/
def meta_config : List Char := "refs/meta/config".toList

/-- `refs/meta/external-ids`. -/
def meta_external_ids : List Char := "refs/meta/external-ids".toList

/-- `refs/meta/group-names`. -/
def meta_group_names : List Char := "refs/meta/group-names".toList

/-- The observable state of one clone: the remote refs (each a tree
snapshot) and the local working tree. -/
structure World where
  refs : List (List Char × Tree)
  tree : Tree
  deriving DecidableEq

/-- The snapshot of a remote ref, if the ref exists. -/
def refLookup (w : World) (r : List Char) : Option Tree :=
  (w.refs.find? (fun e => decide (e.1 = r))).map (fun e => e.2)

/-- Update (first occurrence, in place) or create a remote ref. -/
def refSet : List (List Char × Tree) → List Char → Tree → List (List Char × Tree)
  | [], r, t => [(r, t)]
  | e :: rest, r, t => if e.1 = r then (r, t) :: rest else e :: refSet rest r t

/-- Delete a remote ref (`git push --delete origin ref`). -/
def refDel (rs : List (List Char × Tree)) (r : List Char) : List (List Char × Tree) :=
  rs.filter (fun e => !decide (e.1 = r))

/-- Remove a file from the working tree (`git rm path`). -/
def treeRemove (t : Tree) (p : FPath) : Tree :=
  t.filter (fun e => !decide (e.1 = p))

/-- `fetch_checkout(clone, branch, ref)`: load the ref's snapshot as the
working tree; `none` models the exception when the remote ref is absent. -/
def fetch_checkout (w : World) (r : List Char) : Option World :=
  (refLookup w r).map (fun t => { w with tree := t })

/-- `new_orphan(clone, branch)`: empty history, empty working tree. -/
def new_orphan (w : World) : World := { w with tree := [] }

/-- Side effects recorded against the remote. -/
inductive Eff
  | commitPush (ref : List Char)
  | pushDelete (ref : List Char)
  deriving DecidableEq

/-- `commit_and_push(clone, message, ref)` at the state level: stage
everything, commit, and push the working tree onto the remote ref; commit
and push failures are swallowed (see the exception-level model and claim
C5), so this always returns, and an unchanged tree pushes an identical
snapshot. -/
def commit_and_push (w : World) (r : List Char) : World × Eff :=
  ({ w with refs := refSet w.refs r w.tree }, Eff.commitPush r)

/-- Errors raised by the domain operations (uncaught Python exceptions). -/
inductive PErr
  | refNotFound
  | groupNotFound
  | userNotFound
  | invalidRef
  | fileNotFound
  deriving DecidableEq

/-- Python `ls(...)` filtered to files: the direct children of the clone root
that are files, i.e. the tree entries whose path has exactly one segment. -/
def ls_files (t : Tree) : Tree :=
  t.filter (fun e => decide (e.1.length = 1))

/-- The scan inside `get_group_id`: the first top-level group file whose
parsed name equals the group name, with its parsed uuid. -/
def find_group (t : Tree) (g : List Char) : Option (FPath × List Char) :=
  ((ls_files t).filterMap (fun e =>
    match read_group_name_uid e.2 with
    | some nu => if nu.1 = g then some (e.1, nu.2) else none
    | none => none)).head?

/-- `get_group_id(all_users, group_name)`: check out the group-names ref
(raising, `none`, when it is absent) and scan the top-level group files. -/
def get_group_id (w : World) (g : List Char) :
    Option (World × Option (FPath × List Char)) :=
  (fetch_checkout w meta_group_names).map (fun w1 => (w1, find_group w1.tree g))

/-- `delete_group(all_users, group)`. -/
def delete_group (w : World) (group : List Char) : World × List Eff × Option PErr :=
  match fetch_checkout w meta_group_names with
  | none => (w, [], some PErr.refNotFound)
  | some w1 =>
    match find_group w1.tree group with
    | none => (w1, [], some PErr.groupNotFound)
    | some (gpath, gid) =>
      match mk_group_ref gid with
      | none => (w1, [], some PErr.invalidRef)
      | some gref =>
        match invert_ref_id gref with
        | none => (w1, [], some PErr.invalidRef)
        | some igref =>
          if (refLookup w1 igref).isSome then
            let w2 : World := { w1 with refs := refDel w1.refs igref }
            let w3 : World := { w2 with tree := treeRemove w2.tree gpath }
            let we := commit_and_push w3 meta_group_names
            (we.1, [Eff.pushDelete igref, we.2], none)
          else (w1, [], some PErr.refNotFound)

/-- `list_external_ids(all_users)`: check out the external-ids ref and list
every file recursively; a failed checkout is swallowed by `try_action` and
yields the empty list. -/
def list_external_ids (w : World) : World × Tree :=
  match fetch_checkout w meta_external_ids with
  | none => (w, [])
  | some w1 => (w1, w1.tree)

/-- `external_id_header(scheme, name)`. -/
def external_id_header (scheme name : List Char) : List Char :=
  "[externalId \"".toList ++ scheme ++ ':' :: name ++ "\"]".toList

/-- `ext_id_match(headers, ext_id_file)`: some header is (exactly) one of the
file's lines. -/
def ext_id_match (headers : List (List Char)) (content : List Char) : Bool :=
  headers.any (fun h => decide (h ∈ splitOnChar '\n' content))

/-- The headers `delete_user` looks for: the mailto/gerrit/username header
lines for `(user, email)`. -/
def delete_headers (user email : List Char) : List (List Char) :=
  [external_id_header scheme_mail email,
   external_id_header scheme_gerrit user,
   external_id_header scheme_username user]

/-- `get_user_external_id(all_users, user, email)`: the external-id files
whose content matches one of the user's mailto/gerrit/username headers. -/
def get_user_external_id (t : Tree) (user email : List Char) : Tree :=
  t.filter (fun e => ext_id_match (delete_headers user email) e.2)

/-- `get_users_ref(all_users)`: the user refs from `ls-remote`, i.e. the
remote refs whose name starts with `refs/users/` and is not
`refs/users/self` (with their snapshots, which `get_user_ref` checks out). -/
def get_users_ref (w : World) : List (List Char × Tree) :=
  w.refs.filter (fun e =>
    startsWith "refs/users/".toList e.1 && !decide (e.1 = "refs/users/self".toList))

/-- The scan inside `get_user_ref`: check out each user ref in turn and
compare its `account.config` fullName; reading a missing `account.config`
raises (`Except.error`). -/
def scan_user_refs (user : List Char) :
    List (List Char × Tree) → Except PErr (Option (List Char × Tree))
  | [] => Except.ok none
  | e :: rest =>
    match treeFind e.2 ["account.config".toList] with
    | none => Except.error PErr.fileNotFound
    | some c =>
      if read_user_name c = some user then Except.ok (some e)
      else scan_user_refs user rest

/-- `delete_user(all_users, user, email)`: remove every matching external-id
file and commit-and-push that removal unconditionally, then scan the user
refs for one whose `account.config` fullName equals the user, failing
(UserNotFoundError) when none matches, else delete that remote ref. -/
def delete_user (w : World) (user email : List Char) : World × List Eff × Option PErr :=
  let wfiles := list_external_ids w
  let matched := get_user_external_id wfiles.2 user email
  let t2 := matched.foldl (fun t e => treeRemove t e.1) wfiles.1.tree
  let we := commit_and_push { wfiles.1 with tree := t2 } meta_external_ids
  match scan_user_refs user (get_users_ref we.1) with
  | Except.error er => (we.1, [we.2], some er)
  | Except.ok none => (we.1, [we.2], some PErr.userNotFound)
  | Except.ok (some e) =>
    let w4 : World := { we.1 with tree := e.2 }
    ({ w4 with refs := refDel w4.refs e.1 }, [we.2, Eff.pushDelete e.1], none)

/-- The group-ref checkout in `create_admin_user`: try the canonical shard,
then fall back to the inverted shard. -/
def fetch_group_fallback (w : World) (gref : List Char) :
    Except PErr (World × List Char) :=
  match fetch_checkout w gref with
  | some w2 => Except.ok (w2, gref)
  | none =>
    match invert_ref_id gref with
    | none => Except.error PErr.invalidRef
    | some igref =>
      match fetch_checkout w igref with
      | some w2 => Except.ok (w2, igref)
      | none => Except.error PErr.refNotFound

/-- `members`. -/
def members_path : FPath := ["members".toList]

/-- `account.config`. -/
def account_config_path : FPath := ["account.config".toList]

/-- `authorized_keys`. -/
def authorized_keys_path : FPath := ["authorized_keys".toList]

/-- The body of `create_admin_user` when the admin user ref did not fetch:
add id 1 to the Administrators group members, write the admin external ids,
and bootstrap the user ref, with one commit-and-push per step. -/
def create_admin_user_block (sha1sum : Hash) (w : World)
    (email pubkey scheme admin_ref : List Char) : World × List Eff × Option PErr :=
  match fetch_checkout w meta_group_names with
  | none => (w, [], some PErr.refNotFound)
  | some w1 =>
    match find_group w1.tree "Administrators".toList with
    | none => (w1, [], some PErr.groupNotFound)
    | some gi =>
      match mk_group_ref gi.2 with
      | none => (w1, [], some PErr.invalidRef)
      | some gref0 =>
        match fetch_group_fallback w1 gref0 with
        | Except.error er => (w1, [], some er)
        | Except.ok wg =>
          let members := match treeFind wg.1.tree members_path with
            | some c => splitOnChar '\n' c
            | none => []
          let t3 := if "1".toList ∈ members then wg.1.tree
            else treeWrite wg.1.tree members_path
              (joinChar '\n' (members ++ ["1".toList, []]))
          let we1 := commit_and_push { wg.1 with tree := t3 } wg.2
          let w5 := match fetch_checkout we1.1 meta_external_ids with
            | some wx => wx
            | none => new_orphan we1.1
          let t6 := write_gerrit_username_id_files sha1sum w5.tree
            "admin".toList "1".toList scheme
          let t7 := write_sha_obj t6 [] (sha1sum (scheme_mail ++ ':' :: email)) 1
            [ "[externalId \"mailto:".toList ++ email ++ "\"]".toList,
              "\taccountId = 1".toList,
              "\temail = ".toList ++ email,
              [] ]
          let we2 := commit_and_push { w5 with tree := t7 } meta_external_ids
          let w9 := new_orphan we2.1
          let t10 := treeWrite w9.tree account_config_path (joinChar '\n'
            [ "[account]".toList,
              "\tfullName = Administrator".toList,
              "\tpreferredEmail = ".toList ++ email,
              [] ])
          let t11 := treeWrite t10 authorized_keys_path (pubkey ++ ['\n'])
          let we3 := commit_and_push { w9 with tree := t11 } admin_ref
          (we3.1, [we1.2, we2.2, we3.2], none)


/-- `create_admin_user(email, pubkey, all_users, scheme)`: ensure the admin
user is created; a no-op when the admin user ref `refs/users/01/1` already
fetches successfully. -/
def create_admin_user (sha1sum : Hash) (w : World) (email pubkey scheme : List Char) :
    World × List Eff × Option PErr :=
  match mk_user_ref "1".toList with
  | none => (w, [], some PErr.invalidRef)
  | some admin_ref =>
    if (refLookup w admin_ref).isSome then (w, [], none)
    else create_admin_user_block sha1sum w email pubkey scheme admin_ref

end Pynotedb

namespace Pynotedb.Exc

/-! ### The exception-level model of `commit_and_push` (claim C5). -/

/-- One git invocation inside `commit_and_push`. -/
inductive GitCmd
  | commit (msg : List Char)
  | push (refspec : List Char)
  deriving DecidableEq

/-- Which git invocations fail in the current environment: the commit can
fail (nothing staged to commit), the push can fail (rejected by the remote
after a concurrent update). -/
structure GitEnv where
  fails : GitCmd → Bool

/-- Run one git command; `execute` raises (`Except.error`) when the
subprocess exits non-zero. -/
def git (env : GitEnv) (cmd : GitCmd) : Except Unit Unit :=
  if env.fails cmd then Except.error () else Except.ok ()

/-- `try_action(action)` (utils.py): `True` if the action succeeds, `False`
if it raises anything (a bare `except`). -/
def try_action (r : Except Unit Unit) : Bool :=
  match r with
  | Except.ok _ => true
  | Except.error _ => false

/-- `commit_and_push(clone, message, ref)`: run `git commit -a -m message`
under `try_action`, then `git push origin HEAD:ref` under `try_action`.
The first component records the attempted commands with their outcomes (a
ghost trace); the second component is the function's own result. -/
def commit_and_push (env : GitEnv) (message ref : List Char) :
    List (GitCmd × Bool) × Except Unit Unit :=
  let c1 := GitCmd.commit message
  let ok1 := try_action (git env c1)
  let c2 := GitCmd.push ("HEAD:".toList ++ ref)
  let ok2 := try_action (git env c2)
  ([(c1, ok1), (c2, ok2)], Except.ok ())

/-- C5: `commit_and_push` returns normally for every input: a failing commit
and a failing push are caught and swallowed independently (both commands are
always attempted, whatever fails), the function never raises, and its result
is identical in every environment, so a caller cannot distinguish an applied
change from a lost push race. -/
theorem C5_commit_and_push_swallows (env : GitEnv) (message ref : List Char) :
    (commit_and_push env message ref).2 = Except.ok ()
    ∧ (commit_and_push env message ref).1.map Prod.fst
        = [GitCmd.commit message, GitCmd.push ("HEAD:".toList ++ ref)]
    ∧ ∀ env' : GitEnv,
        (commit_and_push env message ref).2 = (commit_and_push env' message ref).2 :=
  ⟨rfl, rfl, fun _ => rfl⟩

end Pynotedb.Exc

namespace Pynotedb

/-! ### Remote-ref bookkeeping lemmas -/

theorem refLookup_set_self (rs : List (List Char × Tree)) (tr : Tree)
    (r : List Char) (t : Tree) :
    refLookup ⟨refSet rs r t, tr⟩ r = some t := by
  induction rs with
  | nil => simp [refLookup, refSet, List.find?]
  | cons e rest ih =>
    rw [refSet]
    by_cases her : e.1 = r
    · rw [if_pos her]
      simp [refLookup, List.find?]
    · rw [if_neg her]
      simp only [refLookup, List.find?] at ih ⊢
      rw [show (decide (e.1 = r)) = false by simp [her]]
      simpa using ih

theorem refLookup_set_other (rs : List (List Char × Tree)) (tr tr' : Tree)
    (r r' : List Char) (t : Tree) (hne : r' ≠ r) :
    refLookup ⟨refSet rs r t, tr⟩ r' = refLookup ⟨rs, tr'⟩ r' := by
  induction rs with
  | nil =>
    simp [refLookup, refSet, List.find?, show (decide (r = r')) = false by
      simp; exact fun hh => hne hh.symm]
  | cons e rest ih =>
    rw [refSet]
    by_cases her : e.1 = r
    · rw [if_pos her]
      simp only [refLookup, List.find?]
      rw [show (decide (r = r')) = false by simp; exact fun hh => hne hh.symm]
      rw [show (decide (e.1 = r')) = false by simp [her]; exact fun hh => hne hh.symm]
    · rw [if_neg her]
      simp only [refLookup, List.find?] at ih ⊢
      by_cases her' : e.1 = r'
      · rw [show (decide (e.1 = r')) = true by simp [her']]
      · rw [show (decide (e.1 = r')) = false by simp [her']]
        simpa using ih

theorem refLookup_del_self (rs : List (List Char × Tree)) (tr : Tree)
    (r : List Char) :
    refLookup ⟨refDel rs r, tr⟩ r = none := by
  induction rs with
  | nil => simp [refLookup, refDel, List.find?]
  | cons e rest ih =>
    simp only [refLookup, refDel] at ih ⊢
    by_cases her : e.1 = r
    · rw [List.filter_cons, show (!decide (e.1 = r)) = false by simp [her]]
      simp only [Bool.false_eq_true, if_false]
      exact ih
    · rw [List.filter_cons, show (!decide (e.1 = r)) = true by simp [her]]
      simp only [if_true, List.find?]
      rw [show (decide (e.1 = r)) = false by simp [her]]
      simp only [Bool.false_eq_true, if_false]
      exact ih

theorem refLookup_del_other (rs : List (List Char × Tree)) (tr tr' : Tree)
    (r r' : List Char) (hne : r' ≠ r) :
    refLookup ⟨refDel rs r, tr⟩ r' = refLookup ⟨rs, tr'⟩ r' := by
  induction rs with
  | nil => simp [refLookup, refDel, List.find?]
  | cons e rest ih =>
    simp only [refLookup, refDel] at ih ⊢
    by_cases her : e.1 = r
    · have her' : ¬ e.1 = r' := by rw [her]; exact fun hh => hne hh.symm
      rw [List.filter_cons, show (!decide (e.1 = r)) = false by simp [her]]
      simp only [Bool.false_eq_true, if_false, List.find?]
      rw [show (decide (e.1 = r')) = false by simp [her']] at *
      simpa using ih
    · rw [List.filter_cons, show (!decide (e.1 = r)) = true by simp [her]]
      simp only [if_true, List.find?]
      by_cases her' : e.1 = r'
      · rw [show (decide (e.1 = r')) = true by simp [her']]
      · rw [show (decide (e.1 = r')) = false by simp [her']]
        simpa using ih

/-- The admin user ref computed by `mk_user_ref("1")`. -/
def admin_user_ref : List Char := "refs/users/01/1".toList

theorem mk_user_ref_one : mk_user_ref "1".toList = some admin_user_ref := by decide

/-- When `create_admin_user_block` finishes without an error, the admin user
ref exists on the remote (the last commit-and-push targets it). -/
theorem create_admin_user_block_creates (sha1sum : Hash) (w : World)
    (email pubkey scheme admin_ref : List Char)
    (h : (create_admin_user_block sha1sum w email pubkey scheme admin_ref).2.2 = none) :
    (refLookup (create_admin_user_block sha1sum w email pubkey scheme admin_ref).1
      admin_ref).isSome = true := by
  rw [create_admin_user_block] at h ⊢
  split at h
  · cases h
  · split at h
    · cases h
    · split at h
      · cases h
      · split at h
        · cases h
        · simp only [commit_and_push]
          rw [show (refLookup
              ⟨refSet _ admin_ref _, _⟩ admin_ref) = some _ from refLookup_set_self _ _ _ _]
          rfl

/-- C6: `create_admin_user` is idempotent. Whenever the admin user ref
`refs/users/01/1` already fetches successfully from the remote, the whole
operation performs no mutation at all: the world is returned unchanged and
no effect (no group-membership commit, no identity commit, no push) is
recorded. Consequently a second invocation after a successful first one is a
no-op that leaves the repository state unchanged. -/
theorem C6_create_admin_user_idempotent (sha1sum : Hash) (w : World)
    (email pubkey scheme : List Char) :
    ((refLookup w admin_user_ref).isSome = true →
      create_admin_user sha1sum w email pubkey scheme = (w, [], none))
    ∧ (∀ w' tr, create_admin_user sha1sum w email pubkey scheme = (w', tr, none) →
        create_admin_user sha1sum w' email pubkey scheme = (w', [], none)) := by
  have hguard : ∀ u : World, (refLookup u admin_user_ref).isSome = true →
      create_admin_user sha1sum u email pubkey scheme = (u, [], none) := by
    intro u hu
    rw [create_admin_user, mk_user_ref_one]
    simp only [hu, if_true]
  refine ⟨hguard w, ?_⟩
  intro w' tr h
  rw [create_admin_user, mk_user_ref_one] at h
  by_cases hw : (refLookup w admin_user_ref).isSome = true
  · simp only [hw, if_true] at h
    have hww : w = w' := congrArg Prod.fst h
    subst hww
    exact hguard w hw
  · rw [Bool.not_eq_true] at hw
    simp only [hw, Bool.false_eq_true, if_false] at h
    have h2 : (create_admin_user_block sha1sum w email pubkey scheme admin_user_ref).2.2
        = none := by rw [h]
    have h1 : (create_admin_user_block sha1sum w email pubkey scheme admin_user_ref).1
        = w' := by rw [h]
    have hcreated := create_admin_user_block_creates sha1sum w email pubkey scheme
      admin_user_ref h2
    rw [h1] at hcreated
    exact hguard w' hcreated

/-- Witness for C6: on a world where `refs/users/01/1` exists, the call
returns the world unchanged with no effects and no error. -/
theorem C6_create_admin_user_idempotent_witness :
    create_admin_user hashId ⟨[(admin_user_ref, [])], []⟩
        "admin@localhost".toList "ssh-rsa key".toList scheme_gerrit
      = (⟨[(admin_user_ref, [])], []⟩, [], none) :=
  (C6_create_admin_user_idempotent hashId ⟨[(admin_user_ref, [])], []⟩
    "admin@localhost".toList "ssh-rsa key".toList scheme_gerrit).1 (by decide)

/-! ### Lemmas for `delete_user` (claim C7) -/

/-- Does a user-ref entry's `account.config` name the given user? -/
def user_entry_matches (user : List Char) (e : List Char × Tree) : Bool :=
  match treeFind e.2 ["account.config".toList] with
  | some c => decide (read_user_name c = some user)
  | none => false

theorem scan_user_refs_spec (user : List Char) :
    ∀ l : List (List Char × Tree),
      (∀ e ∈ l, (treeFind e.2 ["account.config".toList]).isSome = true) →
      scan_user_refs user l = Except.ok (l.find? (user_entry_matches user)) := by
  intro l
  induction l with
  | nil => intro _; rfl
  | cons e rest ih =>
    intro hacct
    have he := hacct e (by simp)
    rcases hsome : treeFind e.2 ["account.config".toList] with _ | c
    · rw [hsome] at he; cases he
    · have hmatch : user_entry_matches user e = decide (read_user_name c = some user) := by
        rw [user_entry_matches, hsome]
      by_cases hm : read_user_name c = some user
      · simp only [scan_user_refs, hsome, List.find?_cons, hmatch, if_pos hm]
        rw [show (decide (read_user_name c = some user)) = true by simpa using hm]
      · simp only [scan_user_refs, hsome, List.find?_cons, hmatch, if_neg hm]
        rw [show (decide (read_user_name c = some user)) = false by simpa using hm]
        exact ih (fun x hx => hacct x (List.mem_cons_of_mem _ hx))

theorem foldl_treeRemove_eq_filter (ms : Tree) :
    ∀ t : Tree, ms.foldl (fun acc e => treeRemove acc e.1) t
      = t.filter (fun e => !(ms.any (fun m => decide (e.1 = m.1)))) := by
  induction ms with
  | nil =>
    intro t
    simp only [List.foldl_nil, List.any_nil, Bool.not_false]
    exact (List.filter_true t).symm
  | cons m rest ih =>
    intro t
    rw [List.foldl_cons, ih (treeRemove t m.1), treeRemove, List.filter_filter]
    apply List.filter_congr
    intro e _
    simp [Bool.not_or, Bool.and_comm]

theorem remove_matched_eq_filter (t0 : Tree) (P : FPath × List Char → Bool)
    (hnodup : (treePaths t0).Nodup) :
    (t0.filter P).foldl (fun acc e => treeRemove acc e.1) t0
      = t0.filter (fun e => !(P e)) := by
  rw [foldl_treeRemove_eq_filter]
  apply List.filter_congr
  intro e he
  have hany : ((t0.filter P).any (fun m => decide (e.1 = m.1))) = P e := by
    by_cases hP : P e = true
    · rw [hP]
      exact List.any_eq_true.2 ⟨e, List.mem_filter.2 ⟨he, hP⟩, by simp⟩
    · rw [Bool.not_eq_true] at hP
      rw [hP]
      by_contra hcon
      rw [Bool.not_eq_false] at hcon
      rcases List.any_eq_true.1 hcon with ⟨m, hm, hem⟩
      have hmem := List.mem_filter.1 hm
      have hinj : e = m := by
        rw [treePaths] at hnodup
        exact List.inj_on_of_nodup_map hnodup he hmem.1 (of_decide_eq_true hem)
      rw [← hinj] at hmem
      rw [hmem.2] at hP
      cases hP
  rw [hany]

theorem get_users_ref_set (rs : List (List Char × Tree)) (tr tr' : Tree)
    (r : List Char) (t : Tree)
    (hr : startsWith "refs/users/".toList r = false) :
    get_users_ref ⟨refSet rs r t, tr⟩ = get_users_ref ⟨rs, tr'⟩ := by
  induction rs with
  | nil =>
    simp only [get_users_ref, refSet, List.filter_cons, List.filter_nil]
    rw [show (startsWith "refs/users/".toList r
          && !decide (r = "refs/users/self".toList)) = false by rw [hr]; rfl]
    simp only [Bool.false_eq_true, if_false]
  | cons e rest ih =>
    rw [refSet]
    by_cases her : e.1 = r
    · rw [if_pos her]
      simp only [get_users_ref, List.filter_cons]
      rw [show (startsWith "refs/users/".toList r
            && !decide (r = "refs/users/self".toList)) = false by rw [hr]; rfl]
      rw [show (startsWith "refs/users/".toList e.1
            && !decide (e.1 = "refs/users/self".toList)) = false by rw [her, hr]; rfl]
      simp only [Bool.false_eq_true, if_false]
    · rw [if_neg her]
      simp only [get_users_ref] at ih ⊢
      rw [List.filter_cons, List.filter_cons]
      by_cases hp : (startsWith "refs/users/".toList e.1
          && !decide (e.1 = "refs/users/self".toList)) = true
      · simp only [hp, if_true]
        exact congrArg (e :: ·) ih
      · rw [Bool.not_eq_true] at hp
        simp only [hp, Bool.false_eq_true, if_false]
        exact ih

theorem get_users_ref_del (rs : List (List Char × Tree)) (tr tr' : Tree)
    (r : List Char) :
    get_users_ref ⟨refDel rs r, tr⟩
      = (get_users_ref ⟨rs, tr'⟩).filter (fun e => !decide (e.1 = r)) := by
  simp only [get_users_ref, refDel, List.filter_filter]
  apply List.filter_congr
  intro e _
  rw [Bool.and_comm]

theorem mem_get_users_ref_ne_meta (w : World) (e : List Char × Tree)
    (he : e ∈ get_users_ref w) : e.1 ≠ meta_external_ids := by
  intro heq
  have hmem := List.mem_filter.1 he
  have hp := hmem.2
  rw [heq] at hp
  rw [show (startsWith "refs/users/".toList meta_external_ids
      && !decide (meta_external_ids = "refs/users/self".toList)) = false by decide] at hp
  cases hp

/-- The external-ids tree after `delete_user` removed the matching files. -/
def removed_ids_tree (user email : List Char) (t0 : Tree) : Tree :=
  t0.filter (fun e => !(ext_id_match (delete_headers user email) e.2))

theorem delete_user_reduce (w : World) (user email : List Char) (t0 : Tree)
    (hext : refLookup w meta_external_ids = some t0)
    (hnodup : (treePaths t0).Nodup)
    (hacct : ∀ e ∈ get_users_ref w, (treeFind e.2 ["account.config".toList]).isSome = true) :
    delete_user w user email
      = (match (get_users_ref w).find? (user_entry_matches user) with
         | none =>
           (⟨refSet w.refs meta_external_ids (removed_ids_tree user email t0),
             removed_ids_tree user email t0⟩,
            [Eff.commitPush meta_external_ids], some PErr.userNotFound)
         | some e =>
           (⟨refDel (refSet w.refs meta_external_ids (removed_ids_tree user email t0)) e.1,
             e.2⟩,
            [Eff.commitPush meta_external_ids, Eff.pushDelete e.1], none)) := by
  have hle : list_external_ids w = ({ w with tree := t0 }, t0) := by
    simp [list_external_ids, fetch_checkout, hext]
  have hrm : List.foldl (fun acc e => treeRemove acc e.1) t0
      (List.filter (fun e => ext_id_match (delete_headers user email) e.2) t0)
      = removed_ids_tree user email t0 := by
    have h := remove_matched_eq_filter t0
      (fun e => ext_id_match (delete_headers user email) e.2) hnodup
    simpa [removed_ids_tree] using h
  have husers : get_users_ref
      ⟨refSet w.refs meta_external_ids (removed_ids_tree user email t0),
        removed_ids_tree user email t0⟩ = get_users_ref w := by
    rw [get_users_ref_set w.refs _ w.tree meta_external_ids _ (by decide)]
  have hscan := scan_user_refs_spec user (get_users_ref w) hacct
  simp only [delete_user, hle, get_user_external_id, commit_and_push]
  rw [hrm, husers, hscan]
  cases hfind : (get_users_ref w).find? (user_entry_matches user) with
  | none => rfl
  | some e => rfl

/-- C7: `delete_user` first removes every identity file whose content
contains one of the mailto/gerrit/username header lines for (user, email)
and commits-and-pushes that removal unconditionally (the first recorded
effect is always the external-ids commit, even when zero files matched);
only afterwards does it scan the user refs for one whose `account.config`
fullName equals the user, failing with UserNotFoundError if and only if no
such ref exists; hence a second call for the same (unique) user fails at the
ref-resolution step, after the identity-removal commit went through again. -/
theorem C7_delete_user_unconditional_removal (w : World) (user email : List Char)
    (t0 : Tree)
    (hext : refLookup w meta_external_ids = some t0)
    (hnodup : (treePaths t0).Nodup)
    (hacct : ∀ e ∈ get_users_ref w, (treeFind e.2 ["account.config".toList]).isSome = true)
    (huniq : ∀ e1 ∈ get_users_ref w, ∀ e2 ∈ get_users_ref w,
      user_entry_matches user e1 = true → user_entry_matches user e2 = true → e1 = e2) :
    refLookup (delete_user w user email).1 meta_external_ids
      = some (removed_ids_tree user email t0)
    ∧ (delete_user w user email).2.1.head? = some (Eff.commitPush meta_external_ids)
    ∧ ((delete_user w user email).2.2 = some PErr.userNotFound
        ↔ ∀ e ∈ get_users_ref w, user_entry_matches user e = false)
    ∧ ((delete_user w user email).2.2 = none →
        (delete_user (delete_user w user email).1 user email).2.2
          = some PErr.userNotFound) := by
  have hred := delete_user_reduce w user email t0 hext hnodup hacct
  cases hfind : (get_users_ref w).find? (user_entry_matches user) with
  | none =>
    rw [hfind] at hred
    refine ⟨?_, ?_, ?_, ?_⟩
    · rw [hred]
      exact refLookup_set_self w.refs _ meta_external_ids _
    · rw [hred]
      rfl
    · rw [hred]
      constructor
      · intro _ e he
        have h := List.find?_eq_none.1 hfind e he
        simpa using h
      · intro _
        rfl
    · rw [hred]
      intro hcon
      cases hcon
  | some e =>
    rw [hfind] at hred
    have hmem := List.mem_of_find?_eq_some hfind
    have hmatch := List.find?_some hfind
    have hne_meta := mem_get_users_ref_ne_meta w e hmem
    have hmeta_ne : meta_external_ids ≠ e.1 := fun hh => hne_meta hh.symm
    have hexta : refLookup
        (⟨refDel (refSet w.refs meta_external_ids (removed_ids_tree user email t0)) e.1,
          e.2⟩ : World) meta_external_ids
        = some (removed_ids_tree user email t0) := by
      rw [refLookup_del_other _ _ e.2 e.1 meta_external_ids hmeta_ne]
      exact refLookup_set_self w.refs _ meta_external_ids _
    refine ⟨?_, ?_, ?_, ?_⟩
    · rw [hred]
      exact hexta
    · rw [hred]
      rfl
    · rw [hred]
      constructor
      · intro hcon
        cases hcon
      · intro hall
        have h := hall e hmem
        rw [hmatch] at h
        cases h
    · intro _
      rw [hred]
      have hnodup2 : (treePaths (removed_ids_tree user email t0)).Nodup := by
        rw [treePaths] at hnodup ⊢
        exact List.Nodup.sublist (List.Sublist.map _ (List.filter_sublist t0)) hnodup
      have husers2 : get_users_ref
          (⟨refDel (refSet w.refs meta_external_ids (removed_ids_tree user email t0)) e.1,
            e.2⟩ : World)
          = (get_users_ref w).filter (fun x => !decide (x.1 = e.1)) := by
        rw [get_users_ref_del _ e.2 (removed_ids_tree user email t0) e.1]
        rw [get_users_ref_set w.refs _ w.tree meta_external_ids _ (by decide)]
      have hacct2 : ∀ x ∈ get_users_ref
          (⟨refDel (refSet w.refs meta_external_ids (removed_ids_tree user email t0)) e.1,
            e.2⟩ : World),
          (treeFind x.2 ["account.config".toList]).isSome = true := by
        intro x hx
        rw [husers2] at hx
        exact hacct x (List.mem_filter.1 hx).1
      have hred2 := delete_user_reduce
        (⟨refDel (refSet w.refs meta_external_ids (removed_ids_tree user email t0)) e.1,
          e.2⟩ : World) user email (removed_ids_tree user email t0)
        hexta hnodup2 hacct2
      have hfind2 : (get_users_ref
          (⟨refDel (refSet w.refs meta_external_ids (removed_ids_tree user email t0)) e.1,
            e.2⟩ : World)).find? (user_entry_matches user) = none := by
        rw [husers2, List.find?_eq_none]
        intro x hx hxm
        have hx' := List.mem_filter.1 hx
        have hxe := huniq x hx'.1 e hmem hxm hmatch
        have h2 := hx'.2
        rw [hxe] at h2
        simp at h2
      rw [hfind2] at hred2
      rw [hred2]

/-- Concrete external-ids tree for the C7 witness. -/
def c7t0 : Tree := [(["x".toList], external_id_header scheme_username "bob".toList)]

/-- Concrete user ref name for the C7 witness. -/
def c7uref : List Char := "refs/users/42/42".toList

/-- Concrete user ref snapshot for the C7 witness. -/
def c7utree : Tree := [(account_config_path, "fullName = bob".toList)]

/-- Concrete world for the C7 witness. -/
def c7w : World := ⟨[(meta_external_ids, c7t0), (c7uref, c7utree)], []⟩

/-- Witness for C7 at a concrete world with one matching identity file and
one user ref named `bob`. -/
theorem C7_delete_user_unconditional_removal_witness :
    refLookup (delete_user c7w "bob".toList "b@x".toList).1 meta_external_ids
      = some (removed_ids_tree "bob".toList "b@x".toList c7t0)
    ∧ (delete_user c7w "bob".toList "b@x".toList).2.1.head?
        = some (Eff.commitPush meta_external_ids)
    ∧ ((delete_user c7w "bob".toList "b@x".toList).2.2 = some PErr.userNotFound
        ↔ ∀ e ∈ get_users_ref c7w, user_entry_matches "bob".toList e = false)
    ∧ ((delete_user c7w "bob".toList "b@x".toList).2.2 = none →
        (delete_user (delete_user c7w "bob".toList "b@x".toList).1
            "bob".toList "b@x".toList).2.2
          = some PErr.userNotFound) :=
  C7_delete_user_unconditional_removal c7w "bob".toList "b@x".toList c7t0
    (by decide) (by decide) (by decide) (by decide)

/-! ### Lemmas for `delete_group` (claim C8) -/

theorem read_group_name_uid_ne_nil (c : List Char) (n u : List Char)
    (h : read_group_name_uid c = some (n, u)) : n ≠ [] ∧ u ≠ [] := by
  simp only [read_group_name_uid] at h
  split at h
  · split at h
    · injection h with h
      injection h with h1 h2
      subst h1; subst h2
      assumption
    · cases h
  · cases h

theorem find_group_uid (t : Tree) (g : List Char) (p : FPath) (u : List Char)
    (h : find_group t g = some (p, u)) : u ≠ [] := by
  rw [find_group] at h
  have hmem : (p, u) ∈ (ls_files t).filterMap (fun e =>
      match read_group_name_uid e.2 with
      | some nu => if nu.1 = g then some (e.1, nu.2) else none
      | none => none) := by
    rcases hh : (ls_files t).filterMap (fun e =>
        match read_group_name_uid e.2 with
        | some nu => if nu.1 = g then some (e.1, nu.2) else none
        | none => none) with _ | ⟨a, rest⟩
    · rw [hh] at h; cases h
    · rw [hh] at h
      injection h with h
      rw [h] at hh
      rw [hh]
      simp
  rcases List.mem_filterMap.1 hmem with ⟨e, _, he⟩
  rcases hr : read_group_name_uid e.2 with _ | nu
  · rw [hr] at he; cases he
  · simp only [hr] at he
    by_cases hg : nu.1 = g
    · rw [if_pos hg] at he
      injection he with he1
      have he2 : nu.2 = u := congrArg Prod.snd he1
      rw [← he2]
      exact (read_group_name_uid_ne_nil e.2 nu.1 nu.2 (by rw [hr])).2
    · rw [if_neg hg] at he; cases he

theorem mk_ref_id_shard (id : List Char) (hne : id ≠ []) :
    ∃ shard, mk_ref_id id = some (shard ++ '/' :: id)
      ∧ (('/' : Char) ∉ id → ('/' : Char) ∉ shard) := by
  match id, hne with
  | [c], _ =>
    refine ⟨['0', c], ?_, ?_⟩
    · rw [mk_ref_id]
      simp [List.getLast]
    · intro hid hc
      rcases List.mem_cons.1 hc with h0 | hc2
      · exact absurd h0 (by decide)
      · rw [List.mem_singleton] at hc2
        exact hid (by rw [hc2]; simp)
  | c1 :: c2 :: rest, _ =>
    refine ⟨(c1 :: c2 :: rest).drop ((c1 :: c2 :: rest).length - 2), ?_, ?_⟩
    · rw [mk_ref_id]
      rw [if_pos (by simp)]
    · intro hid hc
      exact hid (List.drop_subset _ _ hc)

/-- The inverted-shard form of a group ref, `refs/groups/<uuid[:2]>/<uuid>`. -/
def inverted_group_ref (gid : List Char) : List Char :=
  joinChar '/' ["refs".toList, "groups".toList, gid.take 2, gid]

theorem mk_group_ref_and_invert (gid : List Char) (hne : gid ≠ [])
    (hs : ('/' : Char) ∉ gid) :
    ∃ gref, mk_group_ref gid = some gref
      ∧ invert_ref_id gref = some (inverted_group_ref gid) := by
  rcases mk_ref_id_shard gid hne with ⟨shard, hmk, hfree⟩
  have hshard := hfree hs
  refine ⟨joinChar '/' ["refs".toList, "groups".toList, shard, gid], ?_, ?_⟩
  · rw [mk_group_ref, mk_ref, hmk]
    rfl
  · rw [invert_ref_id]
    have hsplit : splitOnChar '/' (joinChar '/' ["refs".toList, "groups".toList, shard, gid])
        = ["refs".toList, "groups".toList, shard, gid] := by
      apply splitOnChar_joinChar
      · simp
      · intro l hl
        simp only [List.mem_cons, List.not_mem_nil, or_false] at hl
        rcases hl with rfl | rfl | rfl | h
        · decide
        · decide
        · exact hshard
        · rw [h]
          exact hs
    rw [hsplit]
    rfl

theorem inverted_group_ref_ne_meta (gid : List Char) :
    inverted_group_ref gid ≠ meta_group_names := by
  intro h
  have hp : startsWith "refs/groups/".toList (inverted_group_ref gid) = true := by
    have he : inverted_group_ref gid
        = "refs/groups/".toList ++ (gid.take 2 ++ '/' :: gid) := rfl
    rw [he]
    exact startsWith_append _ _
  rw [h] at hp
  rw [show startsWith "refs/groups/".toList meta_group_names = false by decide] at hp
  cases hp

/-- C8: `delete_group(name)`: when no group file in the group-names ref maps
the name to a uuid it fails with GroupNotFoundError and changes no remote
ref; otherwise it deletes the remote group ref at the inverted-shard path
`refs/groups/<uuid[:2]>/<uuid>` and removes the group file from the
group-names ref in one commit, so calling `delete_group` twice with the same
name succeeds the first time and fails with GroupNotFoundError the second
time. -/
theorem C8_delete_group_twice (w : World) (group : List Char) (t0 : Tree)
    (hgn : refLookup w meta_group_names = some t0) :
    (find_group t0 group = none →
      delete_group w group = ({ w with tree := t0 }, [], some PErr.groupNotFound)
      ∧ (delete_group w group).1.refs = w.refs)
    ∧ (∀ gpath gid, find_group t0 group = some (gpath, gid) →
        ('/' : Char) ∉ gid →
        (refLookup w (inverted_group_ref gid)).isSome = true →
        (delete_group w group).2.2 = none
        ∧ refLookup (delete_group w group).1 (inverted_group_ref gid) = none
        ∧ refLookup (delete_group w group).1 meta_group_names
            = some (treeRemove t0 gpath)
        ∧ (delete_group w group).2.1
            = [Eff.pushDelete (inverted_group_ref gid), Eff.commitPush meta_group_names]
        ∧ (find_group (treeRemove t0 gpath) group = none →
            (delete_group (delete_group w group).1 group).2.2
              = some PErr.groupNotFound
            ∧ (delete_group (delete_group w group).1 group).1.refs
                = (delete_group w group).1.refs)) := by
  have hfc : fetch_checkout w meta_group_names = some { w with tree := t0 } := by
    simp [fetch_checkout, hgn]
  constructor
  · intro hnone
    have hred : delete_group w group
        = ({ w with tree := t0 }, [], some PErr.groupNotFound) := by
      simp only [delete_group, hfc, hnone]
    exact ⟨hred, by rw [hred]⟩
  · intro gpath gid hfound hslash hrem
    have hne := find_group_uid t0 group gpath gid hfound
    rcases mk_group_ref_and_invert gid hne hslash with ⟨gref, hmk, hinv⟩
    have hred : delete_group w group
        = (⟨refSet (refDel w.refs (inverted_group_ref gid)) meta_group_names
              (treeRemove t0 gpath), treeRemove t0 gpath⟩,
           [Eff.pushDelete (inverted_group_ref gid), Eff.commitPush meta_group_names],
           none) := by
      simp only [delete_group, hfc, hfound, hmk, hinv, commit_and_push]
      rw [if_pos (show (refLookup (⟨w.refs, t0⟩ : World)
        (inverted_group_ref gid)).isSome = true from hrem)]
    have hlook_meta : refLookup (delete_group w group).1 meta_group_names
        = some (treeRemove t0 gpath) := by
      rw [hred]
      exact refLookup_set_self _ _ _ _
    refine ⟨by rw [hred], ?_, hlook_meta, by rw [hred], ?_⟩
    · rw [hred]
      rw [refLookup_set_other (refDel w.refs (inverted_group_ref gid)) _ w.tree
        meta_group_names (inverted_group_ref gid) _
        (inverted_group_ref_ne_meta gid)]
      exact refLookup_del_self w.refs w.tree (inverted_group_ref gid)
    · intro hnone2
      have key : ∀ X : World, refLookup X meta_group_names = some (treeRemove t0 gpath) →
          (delete_group X group).2.2 = some PErr.groupNotFound
          ∧ (delete_group X group).1.refs = X.refs := by
        intro X hX
        have hfcX : fetch_checkout X meta_group_names
            = some { X with tree := treeRemove t0 gpath } := by
          simp [fetch_checkout, hX]
        have hredX : delete_group X group
            = ({ X with tree := treeRemove t0 gpath }, [], some PErr.groupNotFound) := by
          simp only [delete_group, hfcX, hnone2]
        exact ⟨by rw [hredX], by rw [hredX]⟩
      exact key (delete_group w group).1 hlook_meta

/-- Concrete group-names tree for the C8 witness. -/
def c8t0 : Tree := [(["g1".toList], "name = devs\nuuid = abcd1234".toList)]

/-- Concrete world for the C8 witness: the group-names ref and the group ref
at the inverted-shard path both exist. -/
def c8w : World :=
  ⟨[(meta_group_names, c8t0), (inverted_group_ref "abcd1234".toList, [])], []⟩

/-- Witness for C8 at a concrete world with one group `devs`. -/
theorem C8_delete_group_twice_witness :
    (delete_group c8w "devs".toList).2.2 = none
    ∧ refLookup (delete_group c8w "devs".toList).1
        (inverted_group_ref "abcd1234".toList) = none
    ∧ (delete_group (delete_group c8w "devs".toList).1 "devs".toList).2.2
        = some PErr.groupNotFound := by
  have h := (C8_delete_group_twice c8w "devs".toList c8t0 (by decide)).2
    ["g1".toList] "abcd1234".toList (by decide) (by decide) (by decide)
  exact ⟨h.1, h.2.1, (h.2.2.2.2 (by decide)).1⟩

/-! ### Scheme-migration rewrites (`create_gerrit_external_id`,
`gerrit_to_kc_external_id`) -/

/-- Python `s.replace(pat, rep)` for a non-empty pattern: replace every
leftmost, non-overlapping occurrence (an empty pattern never occurs here). -/
def replaceAll (pat rep : List Char) : List Char → List Char
  | [] => []
  | c :: rest =>
    if _hps : pat ≠ [] ∧ startsWith pat (c :: rest) = true then
      rep ++ replaceAll pat rep ((c :: rest).drop pat.length)
    else c :: replaceAll pat rep rest
  termination_by s => s.length
  decreasing_by
  · rcases _hps with ⟨hne, _⟩
    have hlen : 1 ≤ pat.length := List.length_pos.2 hne
    simp only [List.length_drop, List.length_cons]
    omega
  · simp

/-- Python `s.split(sep, 1)` for a one-character separator. -/
def split1Char (sep : Char) (s : List Char) : List (List Char) :=
  if sep ∈ s then
    [s.takeWhile (fun c => !decide (c = sep)),
     (s.dropWhile (fun c => !decide (c = sep))).drop 1]
  else [s]

/-- The header-line prefix `[externalId "<scheme>:`. -/
def scheme_header_start (scheme : List Char) : List Char :=
  "[externalId \"".toList ++ scheme ++ [':']

/-- The name extracted from the first line starting with the old scheme's
header prefix: `extid = line.split('"')[1]`, `name = extid.split(":", 1)[1]`.
`none` when no line triggers. (For a triggering line both indexing steps are
defined, since the header prefix contains a quote and a colon; the `headD`
defaults are unreachable there, where Python would raise.) -/
def trigger_name (oldScheme : List Char) (c : List Char) : Option (List Char) :=
  match (splitOnChar '\n' c).filter
      (fun l => startsWith (scheme_header_start oldScheme) l) with
  | [] => none
  | l :: _ =>
    some (((split1Char ':' (((splitOnChar '"' l).drop 1).headD [])).drop 1).headD [])

/-- Common body of `create_gerrit_external_id` (username to gerrit) and
`gerrit_to_kc_external_id` (gerrit to keycloak-oauth): if some line of the
file starts with the old scheme's header prefix, write a sibling file in the
same directory, named by the full hash of the new scheme's external id, with
the old header prefix replaced by the new one everywhere; the old file is
not removed. Callers pass paths of files present in the tree; on a missing
path (where Python would raise) the tree is returned unchanged. -/
def rewrite_scheme_file (sha1sum : Hash) (oldScheme newScheme : List Char)
    (t : Tree) (fp : FPath) : Tree :=
  match treeFind t fp with
  | none => t
  | some filecontent =>
    match trigger_name oldScheme filecontent with
    | none => t
    | some name =>
      treeWrite t (fp.dropLast ++ [sha1sum (newScheme ++ ':' :: name)])
        (replaceAll (scheme_header_start oldScheme)
          (scheme_header_start newScheme) filecontent)

/-- `create_gerrit_external_id(filename)`. -/
def create_gerrit_external_id (sha1sum : Hash) (t : Tree) (fp : FPath) : Tree :=
  rewrite_scheme_file sha1sum scheme_username scheme_gerrit t fp

/-- `gerrit_to_kc_external_id(filename)`. -/
def gerrit_to_kc_external_id (sha1sum : Hash) (t : Tree) (fp : FPath) : Tree :=
  rewrite_scheme_file sha1sum scheme_gerrit scheme_keycloak t fp

theorem rewrite_scheme_file_spec (sha1sum : Hash) (oldS newS : List Char)
    (t : Tree) (root : FPath) (k nm c : List Char)
    (hsha : ∀ s, (sha1sum s).length = 40)
    (hk : k.length = 40)
    (hfind : treeFind t (nest_sha root k 1) = some c)
    (hname : trigger_name oldS c = some nm) :
    treeFind (rewrite_scheme_file sha1sum oldS newS t (nest_sha root k 1))
        (nest_sha root k 1) = some c
    ∧ treeFind (rewrite_scheme_file sha1sum oldS newS t (nest_sha root k 1))
        (root ++ [k.take 2, sha1sum (newS ++ ':' :: nm)])
      = some (replaceAll (scheme_header_start oldS) (scheme_header_start newS) c)
    ∧ root ++ [k.take 2, sha1sum (newS ++ ':' :: nm)]
        ≠ nest_sha root (sha1sum (newS ++ ':' :: nm)) 1
    ∧ ∀ q : FPath, q ≠ root ++ [k.take 2, sha1sum (newS ++ ':' :: nm)] →
        treeFind (rewrite_scheme_file sha1sum oldS newS t (nest_sha root k 1)) q
          = treeFind t q := by
  have hp : nest_sha root k 1 = root ++ [k.take 2, k.drop 2] := by
    rw [nest_sha_eq_append]
    rfl
  have hdrop : (nest_sha root k 1).dropLast = root ++ [k.take 2] := by
    rw [hp, show (root ++ [k.take 2, k.drop 2] : FPath)
        = (root ++ [k.take 2]) ++ [k.drop 2] by simp]
    rw [List.dropLast_concat]
  have hnewp : (nest_sha root k 1).dropLast ++ [sha1sum (newS ++ ':' :: nm)]
      = root ++ [k.take 2, sha1sum (newS ++ ':' :: nm)] := by
    rw [hdrop]
    simp
  have hne_old_new : nest_sha root k 1
      ≠ root ++ [k.take 2, sha1sum (newS ++ ':' :: nm)] := by
    rw [hp]
    intro h
    have h2 : ([k.take 2, k.drop 2] : FPath) = [k.take 2, sha1sum (newS ++ ':' :: nm)] :=
      List.append_cancel_left h
    injection h2 with ha hb
    injection hb with h3 hc
    have h6 := congrArg List.length h3
    rw [List.length_drop, hk, hsha] at h6
    omega
  have hred : rewrite_scheme_file sha1sum oldS newS t (nest_sha root k 1)
      = treeWrite t (root ++ [k.take 2, sha1sum (newS ++ ':' :: nm)])
          (replaceAll (scheme_header_start oldS) (scheme_header_start newS) c) := by
    simp only [rewrite_scheme_file, hfind, hname, hnewp]
  refine ⟨?_, ?_, ?_, ?_⟩
  · rw [hred, treeFind_write_other _ _ _ _ hne_old_new]
    exact hfind
  · rw [hred]
    exact treeFind_write_self _ _ _
  · intro h
    rw [nest_sha_eq_append] at h
    have h2 : ([k.take 2, sha1sum (newS ++ ':' :: nm)] : FPath)
        = shaSegs (sha1sum (newS ++ ':' :: nm)) 1 :=
      List.append_cancel_left h
    rw [show shaSegs (sha1sum (newS ++ ':' :: nm)) 1
        = [(sha1sum (newS ++ ':' :: nm)).take 2,
           (sha1sum (newS ++ ':' :: nm)).drop 2] from rfl] at h2
    injection h2 with ha hb
    injection hb with h3 hc
    have h6 := congrArg List.length h3
    rw [List.length_drop, hsha] at h6
    omega
  · intro q hq
    rw [hred, treeFind_write_other _ _ _ _ hq]

/-- A hash function with 40-character digests, used by witnesses. -/
def hash40 : Hash := fun s => (s ++ List.replicate 40 'a').take 40

theorem hash40_length : ∀ s, (hash40 s).length = 40 := by
  intro s
  rw [hash40]
  simp only [List.length_take, List.length_append, List.length_replicate]
  omega

/-- C10: the scheme-migration rewrites never delete the old-scheme identity
file: after a username-to-gerrit (`create_gerrit_external_id`) or
gerrit-to-keycloak-oauth (`gerrit_to_kc_external_id`) rewrite of a file at
nesting depth 1, the old record is still present, the new record is written
into the parent directory of the old file with the full 40-character hash of
the new key as its filename, and that path is not the path
`nest_sha root (new key) 1` would compute for the new key at depth 1. -/
theorem C10_rewrite_sibling_not_nested (sha1sum : Hash) (t t' : Tree)
    (root : FPath) (k nm k' nm' c c' : List Char)
    (hsha : ∀ s, (sha1sum s).length = 40) (hk : k.length = 40)
    (hk' : k'.length = 40) :
    (treeFind t (nest_sha root k 1) = some c →
      trigger_name scheme_username c = some nm →
      treeFind (create_gerrit_external_id sha1sum t (nest_sha root k 1))
          (nest_sha root k 1) = some c
      ∧ treeFind (create_gerrit_external_id sha1sum t (nest_sha root k 1))
          (root ++ [k.take 2, sha1sum (scheme_gerrit ++ ':' :: nm)])
        = some (replaceAll (scheme_header_start scheme_username)
            (scheme_header_start scheme_gerrit) c)
      ∧ root ++ [k.take 2, sha1sum (scheme_gerrit ++ ':' :: nm)]
          ≠ nest_sha root (sha1sum (scheme_gerrit ++ ':' :: nm)) 1)
    ∧ (treeFind t' (nest_sha root k' 1) = some c' →
      trigger_name scheme_gerrit c' = some nm' →
      treeFind (gerrit_to_kc_external_id sha1sum t' (nest_sha root k' 1))
          (nest_sha root k' 1) = some c'
      ∧ treeFind (gerrit_to_kc_external_id sha1sum t' (nest_sha root k' 1))
          (root ++ [k'.take 2, sha1sum (scheme_keycloak ++ ':' :: nm')])
        = some (replaceAll (scheme_header_start scheme_gerrit)
            (scheme_header_start scheme_keycloak) c')
      ∧ root ++ [k'.take 2, sha1sum (scheme_keycloak ++ ':' :: nm')]
          ≠ nest_sha root (sha1sum (scheme_keycloak ++ ':' :: nm')) 1) := by
  constructor
  · intro hfind hname
    have h := rewrite_scheme_file_spec sha1sum scheme_username scheme_gerrit t root
      k nm c hsha hk hfind hname
    exact ⟨h.1, h.2.1, h.2.2.1⟩
  · intro hfind hname
    have h := rewrite_scheme_file_spec sha1sum scheme_gerrit scheme_keycloak t' root
      k' nm' c' hsha hk' hfind hname
    exact ⟨h.1, h.2.1, h.2.2.1⟩

/-- Concrete old-record content (username scheme) for the C10 witness. -/
def c10cu : List Char := external_id_header scheme_username "bob".toList

/-- Concrete old-record content (gerrit scheme) for the C10 witness. -/
def c10cg : List Char := external_id_header scheme_gerrit "bob".toList

/-- Witness for C10 at concrete depth-1 stores. -/
theorem C10_rewrite_sibling_not_nested_witness :
    (treeFind (create_gerrit_external_id hash40 [(nest_sha [] sha40ex 1, c10cu)]
        (nest_sha [] sha40ex 1)) (nest_sha [] sha40ex 1) = some c10cu
      ∧ ([] : FPath) ++ [sha40ex.take 2, hash40 (scheme_gerrit ++ ':' :: "bob".toList)]
          ≠ nest_sha [] (hash40 (scheme_gerrit ++ ':' :: "bob".toList)) 1)
    ∧ (treeFind (gerrit_to_kc_external_id hash40 [(nest_sha [] sha40ex 1, c10cg)]
        (nest_sha [] sha40ex 1)) (nest_sha [] sha40ex 1) = some c10cg
      ∧ ([] : FPath) ++ [sha40ex.take 2, hash40 (scheme_keycloak ++ ':' :: "bob".toList)]
          ≠ nest_sha [] (hash40 (scheme_keycloak ++ ':' :: "bob".toList)) 1) := by
  have h := C10_rewrite_sibling_not_nested hash40
    [(nest_sha [] sha40ex 1, c10cu)] [(nest_sha [] sha40ex 1, c10cg)]
    [] sha40ex "bob".toList sha40ex "bob".toList c10cu c10cg
    hash40_length (by decide) (by decide)
  have h1 := h.1 (by decide) (by decide)
  have h2 := h.2 (by decide) (by decide)
  exact ⟨⟨h1.1, h1.2.2⟩, ⟨h2.1, h2.2.2⟩⟩

/-! ### Occurrence lemmas for `replaceAll` (migration idempotence, claim C9) -/

theorem startsWith_trans {α : Type} [DecidableEq α] {a b s : List α}
    (h1 : startsWith a b = true) (h2 : startsWith b s = true) :
    startsWith a s = true := by
  rcases (startsWith_iff a b).1 h1 with ⟨t1, rfl⟩
  rcases (startsWith_iff _ s).1 h2 with ⟨t2, rfl⟩
  rw [List.append_assoc]
  exact startsWith_append a _

theorem startsWith_head {α : Type} [DecidableEq α] {p s : List α}
    (h : startsWith p s = true) (hne : p ≠ []) : p.head? = s.head? := by
  rcases (startsWith_iff p s).1 h with ⟨t, rfl⟩
  cases p with
  | nil => exact absurd rfl hne
  | cons a as => rfl

theorem startsWith_nil_right {α : Type} [DecidableEq α] {p : List α}
    (hne : p ≠ []) : startsWith p ([] : List α) = false := by
  cases p with
  | nil => exact absurd rfl hne
  | cons a as => rfl

theorem startsWith_append_iff {α : Type} [DecidableEq α] (p r t : List α) :
    startsWith p (r ++ t) = true ↔
      startsWith p r = true
      ∨ (startsWith r p = true ∧ startsWith (p.drop r.length) t = true) := by
  induction r generalizing p with
  | nil =>
    cases p with
    | nil => simp [startsWith_nil]
    | cons a ps => simp [startsWith, startsWith_nil]
  | cons c rs ih =>
    cases p with
    | nil => simp [startsWith_nil]
    | cons a ps =>
      by_cases hac : a = c
      · subst hac
        rw [List.cons_append]
        rw [show startsWith (a :: ps) (a :: (rs ++ t)) = startsWith ps (rs ++ t) by
          rw [startsWith]; simp]
        rw [show startsWith (a :: ps) (a :: rs) = startsWith ps rs by
          rw [startsWith]; simp]
        rw [show startsWith (a :: rs) (a :: ps) = startsWith rs ps by
          rw [startsWith]; simp]
        rw [show ((a :: ps).drop (a :: rs).length) = ps.drop rs.length by
          simp]
        exact ih ps
      · have hca : ¬ c = a := fun hh => hac hh.symm
        rw [List.cons_append]
        rw [show startsWith (a :: ps) (c :: (rs ++ t)) = false by
          rw [startsWith, if_neg hac]]
        rw [show startsWith (a :: ps) (c :: rs) = false by
          rw [startsWith, if_neg hac]]
        rw [show startsWith (c :: rs) (a :: ps) = false by
          rw [startsWith, if_neg hca]]
        simp

theorem containsSub_iff {α : Type} [DecidableEq α] (p s : List α) :
    containsSub p s = true ↔ ∃ i, startsWith p (s.drop i) = true := by
  induction s with
  | nil =>
    rw [containsSub]
    constructor
    · intro h; exact ⟨0, h⟩
    · rintro ⟨i, hi⟩; simpa using hi
  | cons c cs ih =>
    rw [containsSub, Bool.or_eq_true, ih]
    constructor
    · rintro (h | ⟨i, hi⟩)
      · exact ⟨0, h⟩
      · exact ⟨i + 1, hi⟩
    · rintro ⟨i, hi⟩
      cases i with
      | zero => exact Or.inl hi
      | succ i => exact Or.inr ⟨i, hi⟩

theorem containsSub_append_cases {α : Type} [DecidableEq α] (p : List α) :
    ∀ x y : List α, containsSub p (x ++ y) = true →
      (∃ i, i < x.length ∧ startsWith p (x.drop i ++ y) = true)
      ∨ containsSub p y = true := by
  intro x
  induction x with
  | nil => intro y h; exact Or.inr (by simpa using h)
  | cons c xs ih =>
    intro y h
    rw [List.cons_append, containsSub, Bool.or_eq_true] at h
    rcases h with h | h
    · exact Or.inl ⟨0, by simp, by simpa using h⟩
    · rcases ih y h with ⟨i, hi, hsw⟩ | h2
      · exact Or.inl ⟨i + 1, by simpa using Nat.succ_lt_succ hi, by simpa using hsw⟩
      · exact Or.inr h2

theorem replaceAll_nil (pat rep : List Char) : replaceAll pat rep [] = [] := by
  rw [replaceAll]

theorem replaceAll_pos (pat rep : List Char) (c : Char) (rest : List Char)
    (hne : pat ≠ []) (hsw : startsWith pat (c :: rest) = true) :
    replaceAll pat rep (c :: rest)
      = rep ++ replaceAll pat rep ((c :: rest).drop pat.length) := by
  rw [replaceAll, dif_pos ⟨hne, hsw⟩]

theorem replaceAll_neg (pat rep : List Char) (c : Char) (rest : List Char)
    (hsw : startsWith pat (c :: rest) = false) :
    replaceAll pat rep (c :: rest) = c :: replaceAll pat rep rest := by
  rw [replaceAll, dif_neg (fun hh => by rw [hsw] at hh; exact absurd hh.2 (by simp))]

theorem replaceAll_prefix (pat rep x : List Char) (hne : pat ≠ []) :
    replaceAll pat rep (pat ++ x) = rep ++ replaceAll pat rep x := by
  match pat, hne with
  | p0 :: ptail, _ =>
    rw [List.cons_append,
      replaceAll_pos (p0 :: ptail) rep p0 (ptail ++ x) (by simp)
        (by rw [← List.cons_append]; exact startsWith_append _ _)]
    rw [show (p0 :: (ptail ++ x)) = (p0 :: ptail) ++ x from rfl, List.drop_left]

theorem replaceAll_length_le (pat rep : List Char) (hle : rep.length ≤ pat.length) :
    ∀ (k : Nat) (s : List Char), s.length ≤ k →
      (replaceAll pat rep s).length ≤ s.length := by
  intro k
  induction k with
  | zero =>
    intro s hs
    match s, hs with
    | [], _ => rw [replaceAll_nil]
  | succ k ih =>
    intro s hs
    match s with
    | [] => rw [replaceAll_nil]
    | c :: rest =>
      by_cases hcond : pat ≠ [] ∧ startsWith pat (c :: rest) = true
      · rw [replaceAll_pos pat rep c rest hcond.1 hcond.2]
        have hplen := startsWith_length_le hcond.2
        have hp1 : 1 ≤ pat.length := List.length_pos.2 hcond.1
        have hrec := ih ((c :: rest).drop pat.length) (by
          simp only [List.length_drop, List.length_cons] at hs ⊢
          omega)
        simp only [List.length_append, List.length_drop, List.length_cons] at *
        omega
      · rw [replaceAll, dif_neg hcond]
        have hrec := ih rest (by simp at hs; omega)
        simp only [List.length_cons]
        omega

theorem replaceAll_length_lt (pat rep : List Char) (hlt : rep.length < pat.length) :
    ∀ (k : Nat) (s : List Char), s.length ≤ k → containsSub pat s = true →
      (replaceAll pat rep s).length < s.length := by
  have hne : pat ≠ [] := by
    intro hp
    rw [hp] at hlt
    simp at hlt
  intro k
  induction k with
  | zero =>
    intro s hs hc
    match s, hs with
    | [], _ =>
      rw [containsSub, startsWith_nil_right hne] at hc
      cases hc
  | succ k ih =>
    intro s hs hc
    match s with
    | [] =>
      rw [containsSub, startsWith_nil_right hne] at hc
      cases hc
    | c :: rest =>
      by_cases hsw : startsWith pat (c :: rest) = true
      · rw [replaceAll_pos pat rep c rest hne hsw]
        have hplen := startsWith_length_le hsw
        have hrec := replaceAll_length_le pat rep (Nat.le_of_lt hlt)
          ((c :: rest).drop pat.length).length ((c :: rest).drop pat.length) le_rfl
        simp only [List.length_append, List.length_drop, List.length_cons] at *
        omega
      · rw [Bool.not_eq_true] at hsw
        rw [replaceAll_neg pat rep c rest hsw]
        rw [containsSub, hsw, Bool.false_or] at hc
        have hrec := ih rest (by simp at hs; omega) hc
        simp only [List.length_cons]
        omega

theorem replaceAll_chain (pat rep : List Char) (hne : pat ≠ []) (hrne : rep ≠ [])
    (hS1 : ∀ j, 1 ≤ j → j < pat.length → (pat.drop j).head? ≠ rep.head?) :
    ∀ (k : Nat) (s : List Char), s.length ≤ k → ∀ j, 1 ≤ j → j < pat.length →
      startsWith (pat.drop j) (replaceAll pat rep s) = true →
      startsWith (pat.drop j) s = true := by
  intro k
  induction k with
  | zero =>
    intro s hs j hj1 hj2 hsw
    match s, hs with
    | [], _ =>
      rw [replaceAll_nil] at hsw
      rw [startsWith_nil_right (by
        intro hd
        have := congrArg List.length hd
        simp only [List.length_drop, List.length_nil] at this
        omega)] at hsw
      cases hsw
  | succ k ih =>
    intro s hs j hj1 hj2 hq
    have hqne : pat.drop j ≠ [] := by
      intro hd
      have := congrArg List.length hd
      simp only [List.length_drop, List.length_nil] at this
      omega
    match s with
    | [] =>
      rw [replaceAll_nil, startsWith_nil_right hqne] at hq
      cases hq
    | c :: rest =>
      by_cases hsw : startsWith pat (c :: rest) = true
      · rw [replaceAll_pos pat rep c rest hne hsw] at hq
        rcases (startsWith_append_iff _ rep _).1 hq with hL | ⟨hR, _⟩
        · have hh := startsWith_head hL hqne
          exact absurd hh (hS1 j hj1 hj2)
        · have hh := startsWith_head hR hrne
          exact absurd hh.symm (hS1 j hj1 hj2)
      · rw [Bool.not_eq_true] at hsw
        rw [replaceAll_neg pat rep c rest hsw] at hq
        have hdropj : pat.drop j = pat.get ⟨j, hj2⟩ :: pat.drop (j + 1) := by
          rw [List.drop_eq_getElem_cons hj2]
          rfl
        rw [hdropj] at hq ⊢
        rw [startsWith] at hq ⊢
        by_cases hpc : pat.get ⟨j, hj2⟩ = c
        · rw [if_pos hpc] at hq ⊢
          by_cases hlast : j + 1 = pat.length
          · rw [show pat.drop (j + 1) = [] by
              rw [List.drop_eq_nil_iff]
              omega] at hq ⊢
            exact startsWith_nil _
          · exact ih rest (by simp at hs; omega) (j + 1) (by omega)
              (by omega) hq
        · rw [if_neg hpc] at hq
          cases hq

theorem replaceAll_no_start_cons (pat rep : List Char) (hne : pat ≠ [])
    (hrne : rep ≠ [])
    (hS1 : ∀ j, 1 ≤ j → j < pat.length → (pat.drop j).head? ≠ rep.head?)
    (c : Char) (rest : List Char) (hsw : startsWith pat (c :: rest) = false) :
    startsWith pat (c :: replaceAll pat rep rest) = false := by
  by_contra hcon
  rw [Bool.not_eq_false] at hcon
  match pat, hne with
  | p0 :: ptail, _ =>
    rw [startsWith] at hcon
    by_cases hp0 : p0 = c
    · rw [if_pos hp0] at hcon
      by_cases hpt : ptail = []
      · rw [hpt] at hsw hcon
        rw [startsWith, if_pos hp0] at hsw
        rw [startsWith_nil] at hsw
        cases hsw
      · have hlen : 1 < (p0 :: ptail).length := by
          cases ptail with
          | nil => exact absurd rfl hpt
          | cons a b => simp
        have := replaceAll_chain (p0 :: ptail) rep (by simp) hrne hS1
          rest.length rest le_rfl 1 le_rfl hlen
          (by simpa using hcon)
        rw [startsWith, if_pos hp0] at hsw
        rw [show ((p0 :: ptail).drop 1) = ptail from rfl] at this
        rw [this] at hsw
        cases hsw
    · rw [if_neg hp0] at hcon
      cases hcon

theorem replaceAll_no_start (pat rep : List Char) (hne : pat ≠ []) (hrne : rep ≠ [])
    (hS1 : ∀ j, 1 ≤ j → j < pat.length → (pat.drop j).head? ≠ rep.head?)
    (hS2a : startsWith pat rep = false) (hS2b : startsWith rep pat = false) :
    ∀ s, startsWith pat (replaceAll pat rep s) = false := by
  intro s
  match s with
  | [] =>
    rw [replaceAll_nil]
    exact startsWith_nil_right hne
  | c :: rest =>
    by_cases hsw : startsWith pat (c :: rest) = true
    · rw [replaceAll_pos pat rep c rest hne hsw]
      by_contra hcon
      rw [Bool.not_eq_false] at hcon
      rcases (startsWith_append_iff _ rep _).1 hcon with hL | ⟨hR, _⟩
      · rw [hL] at hS2a; cases hS2a
      · rw [hR] at hS2b; cases hS2b
    · rw [Bool.not_eq_true] at hsw
      rw [replaceAll_neg pat rep c rest hsw]
      exact replaceAll_no_start_cons pat rep hne hrne hS1 c rest hsw

theorem replaceAll_no_contains (pat rep : List Char) (hne : pat ≠ [])
    (hrne : rep ≠ [])
    (hS1 : ∀ j, 1 ≤ j → j < pat.length → (pat.drop j).head? ≠ rep.head?)
    (hS3 : containsSub pat rep = false)
    (hS4 : ∀ i, i < rep.length → startsWith (rep.drop i) pat = false) :
    ∀ (k : Nat) (s : List Char), s.length ≤ k →
      containsSub pat (replaceAll pat rep s) = false := by
  intro k
  induction k with
  | zero =>
    intro s hs
    match s, hs with
    | [], _ =>
      rw [replaceAll_nil, containsSub]
      exact startsWith_nil_right hne
  | succ k ih =>
    intro s hs
    match s with
    | [] =>
      rw [replaceAll_nil, containsSub]
      exact startsWith_nil_right hne
    | c :: rest =>
      by_cases hsw : startsWith pat (c :: rest) = true
      · rw [replaceAll_pos pat rep c rest hne hsw]
        by_contra hcon
        rw [Bool.not_eq_false] at hcon
        have hrec : containsSub pat
            (replaceAll pat rep ((c :: rest).drop pat.length)) = false := by
          apply ih
          have hp1 : 1 ≤ pat.length := List.length_pos.2 hne
          simp only [List.length_drop, List.length_cons] at hs ⊢
          omega
        rcases containsSub_append_cases pat rep _ hcon with ⟨i, hi, hswi⟩ | hocc
        · rcases (startsWith_append_iff _ (rep.drop i) _).1 hswi with hL | ⟨hR, hT⟩
          · have : containsSub pat rep = true := (containsSub_iff pat rep).2 ⟨i, hL⟩
            rw [this] at hS3; cases hS3
          · have h4 := hS4 i hi
            rw [hR] at h4; cases h4
        · rw [hocc] at hrec; cases hrec
      · rw [Bool.not_eq_true] at hsw
        rw [replaceAll_neg pat rep c rest hsw, containsSub]
        rw [replaceAll_no_start_cons pat rep hne hrne hS1 c rest hsw]
        rw [ih rest (by simp at hs; omega)]
        rfl

theorem splitOnChar_cons_sep (sep : Char) (t : List Char) :
    splitOnChar sep (sep :: t) = [] :: splitOnChar sep t := by
  rw [splitOnChar]
  rcases h : splitOnChar sep t with _ | ⟨a, b⟩
  · exact absurd h (splitOnChar_ne_nil sep t)
  · simp

theorem splitOnChar_cons_ne (sep c : Char) (t : List Char) (hc : ¬ c = sep) :
    splitOnChar sep (c :: t)
      = match splitOnChar sep t with
        | [] => [[c]]
        | h :: tl => (c :: h) :: tl := by
  rw [splitOnChar]
  rcases h : splitOnChar sep t with _ | ⟨a, b⟩
  · exact absurd h (splitOnChar_ne_nil sep t)
  · simp [hc]

theorem splitOnChar_head_starts (sep : Char) :
    ∀ (s : List Char) (h : List Char) (tl : List (List Char)),
      splitOnChar sep s = h :: tl → startsWith h s = true := by
  intro s
  induction s with
  | nil =>
    intro h tl hsplit
    rw [splitOnChar] at hsplit
    injection hsplit with h1 h2
    rw [← h1]
    exact startsWith_nil _
  | cons c rest ih =>
    intro h tl hsplit
    by_cases hc : c = sep
    · subst hc
      rw [splitOnChar_cons_sep] at hsplit
      injection hsplit with h1 h2
      rw [← h1]
      exact startsWith_nil _
    · rw [splitOnChar_cons_ne sep c rest hc] at hsplit
      rcases hrest : splitOnChar sep rest with _ | ⟨a, b⟩
      · exact absurd hrest (splitOnChar_ne_nil sep rest)
      · rw [hrest] at hsplit
        injection hsplit with h1 h2
        rw [← h1, startsWith, if_pos rfl]
        exact ih a b hrest

theorem splitOnChar_append_no_sep (sep : Char) (x t : List Char) (hx : sep ∉ x) :
    splitOnChar sep (x ++ t)
      = match splitOnChar sep t with
        | [] => [x]
        | h :: tl => (x ++ h) :: tl := by
  induction x with
  | nil =>
    rcases h : splitOnChar sep t with _ | ⟨a, b⟩
    · exact absurd h (splitOnChar_ne_nil sep t)
    · simpa using h
  | cons c xs ih =>
    have hc : ¬ c = sep := fun hh => hx (by rw [hh]; simp)
    have hxs : sep ∉ xs := fun hh => hx (List.mem_cons_of_mem _ hh)
    rw [List.cons_append, splitOnChar_cons_ne sep c (xs ++ t) hc, ih hxs]
    rcases h : splitOnChar sep t with _ | ⟨a, b⟩
    · exact absurd h (splitOnChar_ne_nil sep t)
    · simp

theorem replaceAll_lines (pat rep : List Char) (hne : pat ≠ [])
    (hpn : ('\n' : Char) ∉ pat) (hrn : ('\n' : Char) ∉ rep) :
    ∀ (k : Nat) (s : List Char), s.length ≤ k →
      splitOnChar '\n' (replaceAll pat rep s)
        = (splitOnChar '\n' s).map (replaceAll pat rep) := by
  intro k
  induction k with
  | zero =>
    intro s hs
    match s, hs with
    | [], _ =>
      rw [replaceAll_nil]
      rw [show splitOnChar '\n' [] = [[]] from rfl]
      rw [List.map_singleton, replaceAll_nil]
  | succ k ih =>
    intro s hs
    match s with
    | [] =>
      rw [replaceAll_nil]
      rw [show splitOnChar '\n' [] = [[]] from rfl]
      rw [List.map_singleton, replaceAll_nil]
    | c :: rest =>
      by_cases hsw : startsWith pat (c :: rest) = true
      · rcases (startsWith_iff pat (c :: rest)).1 hsw with ⟨tl, htl⟩
        have hp1 : 1 ≤ pat.length := List.length_pos.2 hne
        have htl_len : tl.length ≤ k := by
          have := congrArg List.length htl
          simp only [List.length_cons, List.length_append] at this hs
          omega
        have hdrop : (c :: rest).drop pat.length = tl := by
          rw [htl, List.drop_left]
        rw [replaceAll_pos pat rep c rest hne hsw, hdrop]
        rw [splitOnChar_append_no_sep '\n' rep _ hrn]
        rw [htl, splitOnChar_append_no_sep '\n' pat tl hpn]
        rw [ih tl htl_len]
        rcases h : splitOnChar '\n' tl with _ | ⟨a, b⟩
        · exact absurd h (splitOnChar_ne_nil '\n' tl)
        · rw [List.map_cons, List.map_cons, replaceAll_prefix pat rep a hne]
      · rw [Bool.not_eq_true] at hsw
        rw [replaceAll_neg pat rep c rest hsw]
        by_cases hc : c = '\n'
        · subst hc
          rw [splitOnChar_cons_sep, splitOnChar_cons_sep]
          rw [ih rest (by simp at hs; omega)]
          rw [List.map_cons, replaceAll_nil]
        · rw [splitOnChar_cons_ne '\n' c _ hc, splitOnChar_cons_ne '\n' c rest hc]
          rw [ih rest (by simp at hs; omega)]
          rcases h : splitOnChar '\n' rest with _ | ⟨a, b⟩
          · exact absurd h (splitOnChar_ne_nil '\n' rest)
          · rw [List.map_cons]
            have hca : replaceAll pat rep (c :: a) = c :: replaceAll pat rep a := by
              apply replaceAll_neg
              by_contra hcon
              rw [Bool.not_eq_false] at hcon
              have hpref : startsWith (c :: a) (c :: rest) = true := by
                rw [startsWith, if_pos rfl]
                exact splitOnChar_head_starts '\n' rest a b h
              have := startsWith_trans hcon hpref
              rw [this] at hsw
              cases hsw
            rw [List.map_cons, hca]

theorem trigger_name_replace_none (oldS newS : List Char)
    (hne : scheme_header_start oldS ≠ [])
    (hrne : scheme_header_start newS ≠ [])
    (hpn : ('\n' : Char) ∉ scheme_header_start oldS)
    (hrn : ('\n' : Char) ∉ scheme_header_start newS)
    (hS1 : ∀ j, 1 ≤ j → j < (scheme_header_start oldS).length →
      ((scheme_header_start oldS).drop j).head? ≠ (scheme_header_start newS).head?)
    (hS2a : startsWith (scheme_header_start oldS) (scheme_header_start newS) = false)
    (hS2b : startsWith (scheme_header_start newS) (scheme_header_start oldS) = false) :
    ∀ c, trigger_name oldS
        (replaceAll (scheme_header_start oldS) (scheme_header_start newS) c)
      = none := by
  intro c
  rw [trigger_name]
  have hfilter : (splitOnChar '\n'
      (replaceAll (scheme_header_start oldS) (scheme_header_start newS) c)).filter
        (fun l => startsWith (scheme_header_start oldS) l) = [] := by
    rw [replaceAll_lines _ _ hne hpn hrn c.length c le_rfl]
    rw [List.filter_eq_nil_iff]
    intro l hl
    rcases List.mem_map.1 hl with ⟨l0, _, rfl⟩
    rw [replaceAll_no_start _ _ hne hrne hS1 hS2a hS2b l0]
    simp
  rw [hfilter]

/-! ### Tree lemmas for the migration folds -/

theorem treeFind_mem_paths {t : Tree} {p : FPath} {c : List Char}
    (h : treeFind t p = some c) : p ∈ treePaths t := by
  induction t with
  | nil => cases h
  | cons a rest ih =>
    rw [treeFind] at h
    by_cases hap : a.1 = p
    · rw [treePaths, List.map_cons, hap]
      simp
    · rw [if_neg hap] at h
      exact List.mem_cons_of_mem _ (ih h)

theorem treeFind_not_mem {t : Tree} {p : FPath} (h : p ∉ treePaths t) :
    treeFind t p = none := by
  induction t with
  | nil => rfl
  | cons a rest ih =>
    have hap : ¬ a.1 = p := fun hh => h (by rw [treePaths, List.map_cons, hh]; simp)
    have hrest : p ∉ treePaths rest := fun hh =>
      h (by rw [treePaths, List.map_cons]; exact List.mem_cons_of_mem _ hh)
    rw [treeFind, if_neg hap]
    exact ih hrest

theorem treeFind_of_nodup {t : Tree} (hnd : (treePaths t).Nodup)
    {e : FPath × List Char} (he : e ∈ t) : treeFind t e.1 = some e.2 := by
  induction t with
  | nil => cases he
  | cons a rest ih =>
    rw [treePaths, List.map_cons, List.nodup_cons] at hnd
    rcases List.mem_cons.1 he with heq | he2
    · rw [heq, treeFind, if_pos rfl]
    · have hap : ¬ a.1 = e.1 := by
        intro hh
        exact hnd.1 (by rw [hh]; exact List.mem_map_of_mem _ he2)
      rw [treeFind, if_neg hap]
      exact ih hnd.2 he2

theorem treeWrite_fresh {t : Tree} {p : FPath} (c : List Char)
    (h : p ∉ treePaths t) : treeWrite t p c = t ++ [(p, c)] := by
  induction t with
  | nil => rfl
  | cons a rest ih =>
    have hap : ¬ a.1 = p := fun hh => h (by rw [treePaths, List.map_cons, hh]; simp)
    have hrest : p ∉ treePaths rest := fun hh =>
      h (by rw [treePaths, List.map_cons]; exact List.mem_cons_of_mem _ hh)
    rw [treeWrite, if_neg hap, ih hrest]
    rfl

theorem treeFind_append_of_found {t1 : Tree} (t2 : Tree) {p : FPath}
    {c : List Char} (h : treeFind t1 p = some c) :
    treeFind (t1 ++ t2) p = some c := by
  induction t1 with
  | nil => cases h
  | cons a rest ih =>
    rw [treeFind] at h
    rw [List.cons_append, treeFind]
    by_cases hap : a.1 = p
    · rw [if_pos hap] at h ⊢
      exact h
    · rw [if_neg hap] at h ⊢
      exact ih h

theorem treeFind_append_of_none {t1 : Tree} (t2 : Tree) {p : FPath}
    (h : treeFind t1 p = none) : treeFind (t1 ++ t2) p = treeFind t2 p := by
  induction t1 with
  | nil => rfl
  | cons a rest ih =>
    rw [treeFind] at h
    by_cases hap : a.1 = p
    · rw [if_pos hap] at h; cases h
    · rw [if_neg hap] at h
      rw [List.cons_append, treeFind, if_neg hap]
      exact ih h

theorem treePaths_append (t1 t2 : Tree) :
    treePaths (t1 ++ t2) = treePaths t1 ++ treePaths t2 := by
  rw [treePaths, treePaths, treePaths, List.map_append]

theorem refSet_same : ∀ (rs : List (List Char × Tree)) (tr : Tree)
    (r : List Char) (t : Tree), refLookup ⟨rs, tr⟩ r = some t → refSet rs r t = rs := by
  intro rs
  induction rs with
  | nil => intro tr r t h; cases h
  | cons e rest ih =>
    intro tr r t h
    simp only [refLookup, List.find?] at h
    rw [refSet]
    by_cases her : e.1 = r
    · rw [if_pos her]
      rw [show (decide (e.1 = r)) = true by simp [her]] at h
      simp only [Option.map_some'] at h
      injection h with h
      rcases e with ⟨e1, e2⟩
      simp only at her h
      rw [her, h]
    · rw [if_neg her]
      rw [show (decide (e.1 = r)) = false by simp [her]] at h
      simp only [Bool.false_eq_true, if_false] at h
      rw [ih tr r t (by simpa [refLookup] using h)]

/-! ### The migration fold: first round appends fresh targets, second round
is a no-op -/

/-- The write `rewrite_scheme_file` performs for one file, if any: the
target path (sibling named by the new scheme's hash) and rewritten content. -/
def rewrite_target (sha1sum : Hash) (oldS newS : List Char)
    (e : FPath × List Char) : Option (FPath × List Char) :=
  (trigger_name oldS e.2).map (fun nm =>
    (e.1.dropLast ++ [sha1sum (newS ++ ':' :: nm)],
     replaceAll (scheme_header_start oldS) (scheme_header_start newS) e.2))

theorem rewrite_scheme_file_step_none (sha1sum : Hash) (oldS newS : List Char)
    (t : Tree) (e : FPath × List Char) (hfind : treeFind t e.1 = some e.2)
    (htgt : rewrite_target sha1sum oldS newS e = none) :
    rewrite_scheme_file sha1sum oldS newS t e.1 = t := by
  rw [rewrite_target, Option.map_eq_none'] at htgt
  simp only [rewrite_scheme_file, hfind, htgt]

theorem rewrite_scheme_file_step_some (sha1sum : Hash) (oldS newS : List Char)
    (t : Tree) (e : FPath × List Char) (pc : FPath × List Char)
    (hfind : treeFind t e.1 = some e.2)
    (htgt : rewrite_target sha1sum oldS newS e = some pc) :
    rewrite_scheme_file sha1sum oldS newS t e.1 = treeWrite t pc.1 pc.2 := by
  rw [rewrite_target] at htgt
  rcases hname : trigger_name oldS e.2 with _ | nm
  · rw [hname] at htgt; cases htgt
  · rw [hname, Option.map_some'] at htgt
    injection htgt with htgt
    simp only [rewrite_scheme_file, hfind, hname]
    rw [← htgt]

theorem fold_rewrite_fresh (sha1sum : Hash) (oldS newS : List Char) :
    ∀ (es : List (FPath × List Char)) (acc : Tree),
      es.Nodup →
      (∀ e ∈ es, treeFind acc e.1 = some e.2) →
      (∀ e ∈ es, ∀ pc, rewrite_target sha1sum oldS newS e = some pc →
        pc.1 ∉ treePaths acc) →
      (∀ e1 ∈ es, ∀ e2 ∈ es, ∀ pc1 pc2,
        rewrite_target sha1sum oldS newS e1 = some pc1 →
        rewrite_target sha1sum oldS newS e2 = some pc2 →
        pc1.1 = pc2.1 → e1 = e2) →
      (es.map (fun e => e.1)).foldl
          (fun t fp => rewrite_scheme_file sha1sum oldS newS t fp) acc
        = acc ++ es.filterMap (rewrite_target sha1sum oldS newS) := by
  intro es
  induction es with
  | nil =>
    intro acc _ _ _ _
    simp
  | cons e rest ih =>
    intro acc hnd hA hB hC
    rw [List.nodup_cons] at hnd
    rw [List.map_cons, List.foldl_cons]
    rcases htgt : rewrite_target sha1sum oldS newS e with _ | pc
    · rw [rewrite_scheme_file_step_none sha1sum oldS newS acc e (hA e (by simp)) htgt]
      rw [List.filterMap_cons_none htgt]
      exact ih acc hnd.2 (fun x hx => hA x (List.mem_cons_of_mem _ hx))
        (fun x hx => hB x (List.mem_cons_of_mem _ hx))
        (fun x hx y hy => hC x (List.mem_cons_of_mem _ hx) y (List.mem_cons_of_mem _ hy))
    · have hfresh := hB e (by simp) pc htgt
      rw [rewrite_scheme_file_step_some sha1sum oldS newS acc e pc (hA e (by simp)) htgt]
      rw [treeWrite_fresh pc.2 hfresh]
      rw [show (pc.1, pc.2) = pc from rfl]
      have hrec := ih (acc ++ [pc]) hnd.2
        (fun x hx => treeFind_append_of_found [pc]
          (hA x (List.mem_cons_of_mem _ hx)))
        (fun x hx pc' hpc' => by
          rw [treePaths_append]
          intro hmem
          rcases List.mem_append.1 hmem with hm | hm
          · exact hB x (List.mem_cons_of_mem _ hx) pc' hpc' hm
          · rw [show treePaths [pc] = [pc.1] from rfl, List.mem_singleton] at hm
            have hxe := hC x (List.mem_cons_of_mem _ hx) e (by simp) pc' pc hpc' htgt hm
            rw [hxe] at hx
            exact hnd.1 hx)
        (fun x hx y hy => hC x (List.mem_cons_of_mem _ hx) y (List.mem_cons_of_mem _ hy))
      rw [hrec]
      simp only [List.filterMap_cons, htgt]
      rw [List.append_assoc]
      rfl

theorem fold_rewrite_noop (sha1sum : Hash) (oldS newS : List Char) :
    ∀ (ps : List FPath) (t : Tree),
      (∀ p ∈ ps, rewrite_scheme_file sha1sum oldS newS t p = t) →
      ps.foldl (fun t fp => rewrite_scheme_file sha1sum oldS newS t fp) t = t := by
  intro ps
  induction ps with
  | nil => intro t _; rfl
  | cons p rest ih =>
    intro t h
    rw [List.foldl_cons, h p (by simp)]
    exact ih t (fun x hx => h x (List.mem_cons_of_mem _ hx))

/-! ### The migration operations (`migrate`, `migrate_su_group`,
`migrate_to_keycloak`) -/

theorem splitOnChar_append_cons (sep : Char) :
    ∀ x t : List Char,
      splitOnChar sep (x ++ sep :: t) = splitOnChar sep x ++ splitOnChar sep t := by
  intro x
  induction x with
  | nil =>
    intro t
    rw [List.nil_append, splitOnChar_cons_sep]
    rfl
  | cons c xs ih =>
    intro t
    by_cases hc : c = sep
    · subst hc
      rw [List.cons_append, splitOnChar_cons_sep, splitOnChar_cons_sep, ih]
      rfl
    · rw [List.cons_append, splitOnChar_cons_ne sep c _ hc,
        splitOnChar_cons_ne sep c xs hc, ih]
      rcases h : splitOnChar sep xs with _ | ⟨a, b⟩
      · exact absurd h (splitOnChar_ne_nil sep xs)
      · simp

/-- `project.config` at the top level of the working tree. -/
def project_config_path : FPath := ["project.config".toList]

/-- `groups` at the top level of the working tree. -/
def groups_path : FPath := ["groups".toList]

/-- The configuration entry installed by the external invocation
`git config -f project.config access.refs/*.push "group Administrators"
".*group Administrators"`, rendered as one line of the file. -/
def admin_push_entry : List Char :=
  "access.refs/*.push = group Administrators".toList

/-- Model of `git config -f <file> <key> <value> <value_pattern>`: the call
replaces the entry whose value matches the pattern with the same value, or
appends the entry when no line carries it, so at the file level it ensures
its line is present and leaves a file that already carries the line
unchanged. -/
def git_config_set (entry : List Char) (c : List Char) : List Char :=
  if entry ∈ splitOnChar '\n' c then c else c ++ '\n' :: entry

/-- The `git config -f project.config access.refs/*.push ...` step of
`migrate` on the All-Projects working tree (`git config` creates the file
when it does not exist yet, hence the `getD []`). -/
def git_config_admin_push (t : Tree) : Tree :=
  treeWrite t project_config_path
    (git_config_set admin_push_entry ((treeFind t project_config_path).getD []))

/-- The string `"Non-Interactive Users"` of `migrate_su_group`. -/
def niu_str : List Char := "Non-Interactive Users".toList

/-- The string `"Service Users"` of `migrate_su_group`. -/
def su_str : List Char := "Service Users".toList

/-- `migrate(all_projects_url, all_users_url)`: ensure the admin push rule in
All-Projects `project.config` and commit+push it onto `refs/meta/config`
unconditionally; then list the external-id files of All-Users, apply
`create_gerrit_external_id` to each, and commit+push onto
`refs/meta/external-ids` whenever the listing was non-empty (the Python
guard is `if list(map(create_gerrit_external_id, list_external_ids(...)))`,
whose truthiness only measures how many files exist). Returns the two
resulting clone states and the recorded remote effects. -/
def migrate (sha1sum : Hash) (wp wu : World) : World × World × List Eff :=
  let wp1 : World := { wp with tree := git_config_admin_push wp.tree }
  let wpe := commit_and_push wp1 meta_config
  let lu := list_external_ids wu
  let tr := (treePaths lu.2).foldl (fun t fp => create_gerrit_external_id sha1sum t fp) lu.1.tree
  let wu2 : World := { lu.1 with tree := tr }
  if lu.2 = [] then (wpe.1, lu.1, [wpe.2])
  else
    let wue := commit_and_push wu2 meta_external_ids
    (wpe.1, wue.1, [wpe.2, wue.2])

/-- `migrate_su_group(repo_url)`: check out `refs/meta/config`, rename
`Non-Interactive Users` to `Service Users` in `groups` (only when the new
name is not present yet) and in `project.config`, and commit+push once iff
the dirty flag was set. Missing files raise (`read_text`). -/
def migrate_su_group (w : World) : World × List Eff × Option PErr :=
  match fetch_checkout w meta_config with
  | none => (w, [], some PErr.refNotFound)
  | some w1 =>
    match treeFind w1.tree groups_path with
    | none => (w1, [], some PErr.fileNotFound)
    | some groups =>
      let s1 : World × Bool :=
        if containsSub niu_str groups && !containsSub su_str groups then
          ({ w1 with tree := treeWrite w1.tree groups_path (replaceAll niu_str su_str groups) }, true)
        else (w1, false)
      match treeFind s1.1.tree project_config_path with
      | none => (s1.1, [], some PErr.fileNotFound)
      | some acl =>
        let s2 : World × Bool :=
          if containsSub niu_str acl then
            ({ s1.1 with tree := treeWrite s1.1.tree project_config_path (replaceAll niu_str su_str acl) }, true)
          else s1
        if s2.2 then
          let we := commit_and_push s2.1 meta_config
          (we.1, [we.2], none)
        else (s2.1, [], none)

/-- `migrate_to_keycloak(all_users_url)`: list the external-id files, apply
`gerrit_to_kc_external_id` to each, and commit+push onto
`refs/meta/external-ids` whenever the listing was non-empty. -/
def migrate_to_keycloak (sha1sum : Hash) (wu : World) : World × List Eff :=
  let lu := list_external_ids wu
  let tr := (treePaths lu.2).foldl (fun t fp => gerrit_to_kc_external_id sha1sum t fp) lu.1.tree
  let wu2 : World := { lu.1 with tree := tr }
  if lu.2 = [] then (lu.1, [])
  else
    let wue := commit_and_push wu2 meta_external_ids
    (wue.1, [wue.2])

/-- The path of the sibling file a scheme rewrite would create for one
external-id file, if its content triggers the rewrite. -/
def target_path (sha1sum : Hash) (oldS newS : List Char)
    (e : FPath × List Char) : Option FPath :=
  (trigger_name oldS e.2).map (fun nm =>
    e.1.dropLast ++ [sha1sum (newS ++ ':' :: nm)])

/-- Boolean hypothesis: every rewrite target path is fresh (absent from the
store being migrated). -/
def target_fresh (sha1sum : Hash) (oldS newS : List Char) (t0 : Tree) : Bool :=
  t0.all (fun e =>
    match target_path sha1sum oldS newS e with
    | none => true
    | some p => !decide (p ∈ treePaths t0))

/-- Boolean hypothesis: distinct files of the store have distinct rewrite
target paths (no hash collision among the new external ids). -/
def target_inj (sha1sum : Hash) (oldS newS : List Char) (t0 : Tree) : Bool :=
  t0.all (fun e1 => t0.all (fun e2 =>
    match target_path sha1sum oldS newS e1, target_path sha1sum oldS newS e2 with
    | some p1, some p2 => !decide (p1 = p2) || decide (e1 = e2)
    | _, _ => true))

theorem git_config_set_mem (entry c : List Char) (hent : ('\n' : Char) ∉ entry) :
    entry ∈ splitOnChar '\n' (git_config_set entry c) := by
  rw [git_config_set]
  by_cases h : entry ∈ splitOnChar '\n' c
  · rw [if_pos h]
    exact h
  · rw [if_neg h, splitOnChar_append_cons, splitOnChar_free '\n' entry hent]
    exact List.mem_append.2 (Or.inr (by simp))

theorem git_config_set_idem (entry c : List Char) (hent : ('\n' : Char) ∉ entry) :
    git_config_set entry (git_config_set entry c) = git_config_set entry c := by
  have h := git_config_set_mem entry c hent
  rw [show git_config_set entry (git_config_set entry c)
      = (if entry ∈ splitOnChar '\n' (git_config_set entry c) then git_config_set entry c
         else git_config_set entry c ++ '\n' :: entry) from rfl, if_pos h]

theorem git_config_admin_push_idem (t : Tree) :
    git_config_admin_push (git_config_admin_push t) = git_config_admin_push t := by
  have hent : ('\n' : Char) ∉ admin_push_entry := by decide
  have hfind : treeFind (git_config_admin_push t) project_config_path
      = some (git_config_set admin_push_entry ((treeFind t project_config_path).getD [])) := by
    rw [git_config_admin_push]
    exact treeFind_write_self _ _ _
  rw [show git_config_admin_push (git_config_admin_push t)
      = treeWrite (git_config_admin_push t) project_config_path
          (git_config_set admin_push_entry
            ((treeFind (git_config_admin_push t) project_config_path).getD []))
      from rfl, hfind, Option.getD_some, git_config_set_idem _ _ hent]
  exact treeWrite_same _ _ _ hfind

theorem list_external_ids_of_ref (wu : World) (t0 : Tree)
    (href : refLookup wu meta_external_ids = some t0) :
    list_external_ids wu = ({ wu with tree := t0 }, t0) := by
  rw [list_external_ids, fetch_checkout, href, Option.map_some']

theorem migrate_effects (sha1sum : Hash) (wp wu : World) :
    (migrate sha1sum wp wu).2.2
      = if (list_external_ids wu).2 = [] then [Eff.commitPush meta_config]
        else [Eff.commitPush meta_config, Eff.commitPush meta_external_ids] := by
  by_cases h : (list_external_ids wu).2 = []
  · simp [migrate, commit_and_push, h]
  · simp [migrate, commit_and_push, h]

theorem migrate_to_keycloak_effects (sha1sum : Hash) (wu : World) :
    (migrate_to_keycloak sha1sum wu).2
      = if (list_external_ids wu).2 = [] then []
        else [Eff.commitPush meta_external_ids] := by
  by_cases h : (list_external_ids wu).2 = []
  · simp [migrate_to_keycloak, commit_and_push, h]
  · simp [migrate_to_keycloak, commit_and_push, h]

theorem migrate_fst (sha1sum : Hash) (wp wu : World) :
    (migrate sha1sum wp wu).1
      = ⟨refSet wp.refs meta_config (git_config_admin_push wp.tree),
         git_config_admin_push wp.tree⟩ := by
  by_cases h : (list_external_ids wu).2 = []
  · simp [migrate, commit_and_push, h]
  · simp [migrate, commit_and_push, h]

theorem migrate_snd_nil (sha1sum : Hash) (wp wu : World) (t0 : Tree)
    (href : refLookup wu meta_external_ids = some t0) (h0 : t0 = []) :
    (migrate sha1sum wp wu).2.1 = { wu with tree := t0 } := by
  simp [migrate, list_external_ids_of_ref wu t0 href, h0]

theorem migrate_snd (sha1sum : Hash) (wp wu : World) (t0 : Tree)
    (href : refLookup wu meta_external_ids = some t0) (h0 : t0 ≠ []) :
    (migrate sha1sum wp wu).2.1
      = ⟨refSet wu.refs meta_external_ids
           ((treePaths t0).foldl (fun t fp => create_gerrit_external_id sha1sum t fp) t0),
         (treePaths t0).foldl (fun t fp => create_gerrit_external_id sha1sum t fp) t0⟩ := by
  simp [migrate, commit_and_push, list_external_ids_of_ref wu t0 href, h0]

theorem migrate_to_keycloak_fst_nil (sha1sum : Hash) (wu : World) (t0 : Tree)
    (href : refLookup wu meta_external_ids = some t0) (h0 : t0 = []) :
    (migrate_to_keycloak sha1sum wu).1 = { wu with tree := t0 } := by
  simp [migrate_to_keycloak, list_external_ids_of_ref wu t0 href, h0]

theorem migrate_to_keycloak_fst (sha1sum : Hash) (wu : World) (t0 : Tree)
    (href : refLookup wu meta_external_ids = some t0) (h0 : t0 ≠ []) :
    (migrate_to_keycloak sha1sum wu).1
      = ⟨refSet wu.refs meta_external_ids
           ((treePaths t0).foldl (fun t fp => gerrit_to_kc_external_id sha1sum t fp) t0),
         (treePaths t0).foldl (fun t fp => gerrit_to_kc_external_id sha1sum t fp) t0⟩ := by
  simp [migrate_to_keycloak, commit_and_push, list_external_ids_of_ref wu t0 href, h0]

theorem target_path_of_rewrite (sha1sum : Hash) (oldS newS : List Char)
    (e : FPath × List Char) (pc : FPath × List Char)
    (h : rewrite_target sha1sum oldS newS e = some pc) :
    target_path sha1sum oldS newS e = some pc.1 := by
  rw [rewrite_target] at h
  rw [target_path]
  rcases hname : trigger_name oldS e.2 with _ | nm
  · rw [hname] at h
    cases h
  · rw [hname] at h
    rw [hname, Option.map_some'] at *
    injection h with h
    rw [← h]

theorem target_path_eq_map (sha1sum : Hash) (oldS newS : List Char)
    (e : FPath × List Char) :
    (rewrite_target sha1sum oldS newS e).map (fun pc => pc.1)
      = target_path sha1sum oldS newS e := by
  rw [rewrite_target, target_path]
  cases trigger_name oldS e.2 <;> rfl

theorem target_fresh_spec (sha1sum : Hash) (oldS newS : List Char) (t0 : Tree)
    (h : target_fresh sha1sum oldS newS t0 = true) :
    ∀ e ∈ t0, ∀ p, target_path sha1sum oldS newS e = some p → p ∉ treePaths t0 := by
  intro e he p hp
  have h2 := List.all_eq_true.1 h e he
  rw [hp] at h2
  simpa using h2

theorem target_inj_spec (sha1sum : Hash) (oldS newS : List Char) (t0 : Tree)
    (h : target_inj sha1sum oldS newS t0 = true) :
    ∀ e1 ∈ t0, ∀ e2 ∈ t0, ∀ p1 p2, target_path sha1sum oldS newS e1 = some p1 →
      target_path sha1sum oldS newS e2 = some p2 → p1 = p2 → e1 = e2 := by
  intro e1 h1 e2 h2 p1 p2 hp1 hp2 hpp
  have h3 := List.all_eq_true.1 (List.all_eq_true.1 h e1 h1) e2 h2
  rw [hp1, hp2, hpp] at h3
  simpa using h3

theorem filterMap_nodup_of_inj {α β : Type} (f : α → Option β) :
    ∀ l : List α, l.Nodup →
      (∀ a1 ∈ l, ∀ a2 ∈ l, ∀ b1 b2, f a1 = some b1 → f a2 = some b2 → b1 = b2 → a1 = a2) →
      (l.filterMap f).Nodup := by
  intro l
  induction l with
  | nil =>
    intro _ _
    simp
  | cons a rest ih =>
    intro hnd hinj
    rw [List.nodup_cons] at hnd
    rcases hfa : f a with _ | b
    · rw [List.filterMap_cons_none hfa]
      exact ih hnd.2 (fun x hx y hy => hinj x (List.mem_cons_of_mem _ hx)
        y (List.mem_cons_of_mem _ hy))
    · simp only [List.filterMap_cons, hfa]
      rw [List.nodup_cons]
      constructor
      · intro hb
        rcases List.mem_filterMap.1 hb with ⟨a2, ha2, hfa2⟩
        have hae := hinj a (List.mem_cons_self _ _) a2 (List.mem_cons_of_mem _ ha2)
          b b hfa hfa2 rfl
        rw [hae] at hnd
        exact hnd.1 ha2
      · exact ih hnd.2 (fun x hx y hy => hinj x (List.mem_cons_of_mem _ hx)
          y (List.mem_cons_of_mem _ hy))

theorem treePaths_targets (sha1sum : Hash) (oldS newS : List Char) (t0 : Tree) :
    treePaths (t0.filterMap (rewrite_target sha1sum oldS newS))
      = t0.filterMap (target_path sha1sum oldS newS) := by
  rw [treePaths, List.map_filterMap]
  exact List.filterMap_congr (fun e _ => target_path_eq_map sha1sum oldS newS e)

theorem rewrite_round1 (sha1sum : Hash) (oldS newS : List Char) (t0 : Tree)
    (hnd : (treePaths t0).Nodup)
    (hfresh : target_fresh sha1sum oldS newS t0 = true)
    (hinj : target_inj sha1sum oldS newS t0 = true) :
    (treePaths t0).foldl (fun t fp => rewrite_scheme_file sha1sum oldS newS t fp) t0
      = t0 ++ t0.filterMap (rewrite_target sha1sum oldS newS) := by
  have hF := target_fresh_spec sha1sum oldS newS t0 hfresh
  have hI := target_inj_spec sha1sum oldS newS t0 hinj
  rw [treePaths]
  apply fold_rewrite_fresh
  · exact List.Nodup.of_map _ hnd
  · intro e he
    exact treeFind_of_nodup hnd he
  · intro e he pc hpc
    exact hF e he pc.1 (target_path_of_rewrite sha1sum oldS newS e pc hpc)
  · intro e1 h1 e2 h2 pc1 pc2 hp1 hp2 hpp
    exact hI e1 h1 e2 h2 pc1.1 pc2.1 (target_path_of_rewrite sha1sum oldS newS e1 pc1 hp1)
      (target_path_of_rewrite sha1sum oldS newS e2 pc2 hp2) hpp

theorem round_paths_nodup (sha1sum : Hash) (oldS newS : List Char) (t0 : Tree)
    (hnd : (treePaths t0).Nodup)
    (hfresh : target_fresh sha1sum oldS newS t0 = true)
    (hinj : target_inj sha1sum oldS newS t0 = true) :
    (treePaths (t0 ++ t0.filterMap (rewrite_target sha1sum oldS newS))).Nodup := by
  rw [treePaths_append]
  apply List.Nodup.append hnd
  · rw [treePaths_targets]
    exact filterMap_nodup_of_inj _ t0 (List.Nodup.of_map _ hnd)
      (fun a1 h1 a2 h2 b1 b2 hb1 hb2 hbb =>
        target_inj_spec sha1sum oldS newS t0 hinj a1 h1 a2 h2 b1 b2 hb1 hb2 hbb)
  · rw [treePaths_targets]
    intro p hp1 hp2
    rcases List.mem_filterMap.1 hp2 with ⟨e, he, hpe⟩
    exact target_fresh_spec sha1sum oldS newS t0 hfresh e he p hpe hp1

theorem rewrite_round2 (sha1sum : Hash) (oldS newS : List Char) (t0 : Tree)
    (hnd : (treePaths t0).Nodup)
    (hfresh : target_fresh sha1sum oldS newS t0 = true)
    (hinj : target_inj sha1sum oldS newS t0 = true)
    (htf : ∀ c, trigger_name oldS
      (replaceAll (scheme_header_start oldS) (scheme_header_start newS) c) = none) :
    (treePaths (t0 ++ t0.filterMap (rewrite_target sha1sum oldS newS))).foldl
        (fun t fp => rewrite_scheme_file sha1sum oldS newS t fp)
        (t0 ++ t0.filterMap (rewrite_target sha1sum oldS newS))
      = t0 ++ t0.filterMap (rewrite_target sha1sum oldS newS) := by
  have hnd1 := round_paths_nodup sha1sum oldS newS t0 hnd hfresh hinj
  apply fold_rewrite_noop
  intro p hp
  rw [treePaths] at hp
  rcases List.mem_map.1 hp with ⟨e, he, hep⟩
  have hfind : treeFind (t0 ++ t0.filterMap (rewrite_target sha1sum oldS newS)) e.1
      = some e.2 := treeFind_of_nodup hnd1 he
  rw [← hep]
  rcases List.mem_append.1 he with he0 | hetf
  · rcases htr : trigger_name oldS e.2 with _ | nm
    · apply rewrite_scheme_file_step_none sha1sum oldS newS _ e hfind
      rw [rewrite_target, htr]
      rfl
    · have hrt : rewrite_target sha1sum oldS newS e
          = some (e.1.dropLast ++ [sha1sum (newS ++ ':' :: nm)],
              replaceAll (scheme_header_start oldS) (scheme_header_start newS) e.2) := by
        rw [rewrite_target, htr]
        rfl
      have hpc_t1 : (e.1.dropLast ++ [sha1sum (newS ++ ':' :: nm)],
            replaceAll (scheme_header_start oldS) (scheme_header_start newS) e.2)
          ∈ t0 ++ t0.filterMap (rewrite_target sha1sum oldS newS) :=
        List.mem_append.2 (Or.inr (List.mem_filterMap.2 ⟨e, he0, hrt⟩))
      have hfindpc := treeFind_of_nodup hnd1 hpc_t1
      rw [rewrite_scheme_file_step_some sha1sum oldS newS _ e _ hfind hrt]
      exact treeWrite_same _ _ _ hfindpc
  · rcases List.mem_filterMap.1 hetf with ⟨src, _, hrt⟩
    have he2 : e.2 = replaceAll (scheme_header_start oldS) (scheme_header_start newS)
        src.2 := by
      rw [rewrite_target] at hrt
      rcases htr : trigger_name oldS src.2 with _ | nm
      · rw [htr] at hrt
        cases hrt
      · rw [htr, Option.map_some'] at hrt
        injection hrt with hrt
        rw [← hrt]
    apply rewrite_scheme_file_step_none sha1sum oldS newS _ e hfind
    rw [rewrite_target, he2, htf src.2]
    rfl

theorem trigfree_username_gerrit (c : List Char) :
    trigger_name scheme_username
      (replaceAll (scheme_header_start scheme_username)
        (scheme_header_start scheme_gerrit) c) = none := by
  exact trigger_name_replace_none scheme_username scheme_gerrit (by decide) (by decide)
    (by decide) (by decide)
    (fun j h1 h2 =>
      (by decide : ∀ j, j < (scheme_header_start scheme_username).length → 1 ≤ j →
        ((scheme_header_start scheme_username).drop j).head?
          ≠ (scheme_header_start scheme_gerrit).head?) j h2 h1)
    (by decide) (by decide) c

theorem trigfree_gerrit_keycloak (c : List Char) :
    trigger_name scheme_gerrit
      (replaceAll (scheme_header_start scheme_gerrit)
        (scheme_header_start scheme_keycloak) c) = none := by
  exact trigger_name_replace_none scheme_gerrit scheme_keycloak (by decide) (by decide)
    (by decide) (by decide)
    (fun j h1 h2 =>
      (by decide : ∀ j, j < (scheme_header_start scheme_gerrit).length → 1 ≤ j →
        ((scheme_header_start scheme_gerrit).drop j).head?
          ≠ (scheme_header_start scheme_keycloak).head?) j h2 h1)
    (by decide) (by decide) c

theorem niu_su_no_contains (s : List Char) :
    containsSub niu_str (replaceAll niu_str su_str s) = false := by
  exact replaceAll_no_contains niu_str su_str (by decide) (by decide)
    (fun j h1 h2 =>
      (by decide : ∀ j, j < niu_str.length → 1 ≤ j →
        (niu_str.drop j).head? ≠ su_str.head?) j h2 h1)
    (by decide)
    (fun i hi =>
      (by decide : ∀ i, i < su_str.length →
        startsWith (su_str.drop i) niu_str = false) i hi)
    s.length s le_rfl

/-- The rename `migrate_su_group` applies to a file (`str.replace(niu, su)`). -/
def su_new (s : List Char) : List Char := replaceAll niu_str su_str s

/-- The guard on the `groups` file of `migrate_su_group`. -/
def su_b1 (g : List Char) : Bool := containsSub niu_str g && !containsSub su_str g

/-- The guard on the `project.config` file of `migrate_su_group`. -/
def su_b2 (a : List Char) : Bool := containsSub niu_str a

/-- The working tree `migrate_su_group` builds from the checked-out snapshot. -/
def su_tree (t0 : Tree) (g a : List Char) : Tree :=
  if su_b2 a then
    treeWrite (if su_b1 g then treeWrite t0 groups_path (su_new g) else t0)
      project_config_path (su_new a)
  else (if su_b1 g then treeWrite t0 groups_path (su_new g) else t0)

theorem migrate_su_group_reduce (w : World) (t0 : Tree) (g a : List Char)
    (href : refLookup w meta_config = some t0)
    (hg : treeFind t0 groups_path = some g)
    (ha : treeFind t0 project_config_path = some a) :
    migrate_su_group w =
      if su_b1 g || su_b2 a then
        (⟨refSet w.refs meta_config (su_tree t0 g a), su_tree t0 g a⟩,
         [Eff.commitPush meta_config], none)
      else (⟨w.refs, t0⟩, [], none) := by
  have hfc : fetch_checkout w meta_config = some ⟨w.refs, t0⟩ := by
    rw [fetch_checkout, href, Option.map_some']
  have hpg : project_config_path ≠ groups_path := by decide
  by_cases hb1 : (containsSub niu_str g && !containsSub su_str g) = true
  · have hacl : treeFind (treeWrite t0 groups_path (replaceAll niu_str su_str g))
        project_config_path = some a := by
      rw [treeFind_write_other t0 groups_path project_config_path _ hpg]
      exact ha
    by_cases hb2 : containsSub niu_str a = true
    · simp only [migrate_su_group, su_b1, su_b2, su_new, su_tree, commit_and_push]
      simp [hfc, hg, hacl, hb1, hb2]
    · have hb2' : containsSub niu_str a = false := by
        rw [Bool.not_eq_true] at hb2
        exact hb2
      simp only [migrate_su_group, su_b1, su_b2, su_new, su_tree, commit_and_push]
      simp [hfc, hg, hacl, hb1, hb2']
  · have hb1' : (containsSub niu_str g && !containsSub su_str g) = false := by
      rw [Bool.not_eq_true] at hb1
      exact hb1
    by_cases hb2 : containsSub niu_str a = true
    · simp only [migrate_su_group, su_b1, su_b2, su_new, su_tree, commit_and_push]
      simp [hfc, hg, ha, hb1', hb2]
    · have hb2' : containsSub niu_str a = false := by
        rw [Bool.not_eq_true] at hb2
        exact hb2
      simp only [migrate_su_group, su_b1, su_b2, su_new, su_tree, commit_and_push]
      simp [hfc, hg, ha, hb1', hb2']

theorem migrate_su_group_commit_changed (w : World) (t0 : Tree) (g a : List Char)
    (href : refLookup w meta_config = some t0)
    (hg : treeFind t0 groups_path = some g)
    (ha : treeFind t0 project_config_path = some a) :
    (migrate_su_group w).2.1.length ≤ 1
    ∧ ((migrate_su_group w).2.1 ≠ [] →
        ∃ p c c', treeFind t0 p = some c
          ∧ treeFind ((migrate_su_group w).1).tree p = some c' ∧ c' ≠ c) := by
  rw [migrate_su_group_reduce w t0 g a href hg ha]
  by_cases hd : (su_b1 g || su_b2 a) = true
  · rw [if_pos hd]
    refine ⟨by simp, fun _ => ?_⟩
    by_cases hb2 : su_b2 a = true
    · refine ⟨project_config_path, a, su_new a, ha, ?_, ?_⟩
      · show treeFind (su_tree t0 g a) project_config_path = some (su_new a)
        rw [su_tree, if_pos hb2]
        exact treeFind_write_self _ _ _
      · intro hcon
        have hlt := replaceAll_length_lt niu_str su_str (by decide) a.length a le_rfl hb2
        have hlen := congrArg List.length hcon
        rw [su_new] at hlen
        omega
    · have hb1 : su_b1 g = true := by
        rw [Bool.or_eq_true] at hd
        rcases hd with h | h
        · exact h
        · exact absurd h hb2
      refine ⟨groups_path, g, su_new g, hg, ?_, ?_⟩
      · show treeFind (su_tree t0 g a) groups_path = some (su_new g)
        rw [su_tree, if_neg hb2, if_pos hb1]
        exact treeFind_write_self _ _ _
      · intro hcon
        have hniu : containsSub niu_str g = true := by
          have hb : (containsSub niu_str g && !containsSub su_str g) = true := hb1
          rw [Bool.and_eq_true] at hb
          exact hb.1
        have hlt := replaceAll_length_lt niu_str su_str (by decide) g.length g le_rfl hniu
        have hlen := congrArg List.length hcon
        rw [su_new] at hlen
        omega
  · rw [if_neg hd]
    exact ⟨by simp, fun hcon => absurd rfl hcon⟩

theorem migrate_su_group_idem (w : World) (t0 : Tree) (g a : List Char)
    (href : refLookup w meta_config = some t0)
    (hg : treeFind t0 groups_path = some g)
    (ha : treeFind t0 project_config_path = some a) :
    ((migrate_su_group (migrate_su_group w).1).1).refs = ((migrate_su_group w).1).refs
    ∧ (migrate_su_group (migrate_su_group w).1).2.1 = []
    ∧ (migrate_su_group (migrate_su_group w).1).2.2 = none := by
  have hpg : project_config_path ≠ groups_path := by decide
  have hgp : groups_path ≠ project_config_path := by decide
  rw [migrate_su_group_reduce w t0 g a href hg ha]
  by_cases hd : (su_b1 g || su_b2 a) = true
  · rw [if_pos hd]
    have href2 : refLookup ⟨refSet w.refs meta_config (su_tree t0 g a), su_tree t0 g a⟩
        meta_config = some (su_tree t0 g a) := refLookup_set_self _ _ _ _
    have hg2 : treeFind (su_tree t0 g a) groups_path
        = some (if su_b1 g then su_new g else g) := by
      rw [su_tree]
      by_cases hb2 : su_b2 a = true
      · rw [if_pos hb2, treeFind_write_other _ _ _ _ hgp]
        by_cases hb1 : su_b1 g = true
        · rw [if_pos hb1, if_pos hb1]
          exact treeFind_write_self _ _ _
        · rw [if_neg hb1, if_neg hb1]
          exact hg
      · rw [if_neg hb2]
        by_cases hb1 : su_b1 g = true
        · rw [if_pos hb1, if_pos hb1]
          exact treeFind_write_self _ _ _
        · rw [if_neg hb1, if_neg hb1]
          exact hg
    have ha2 : treeFind (su_tree t0 g a) project_config_path
        = some (if su_b2 a then su_new a else a) := by
      rw [su_tree]
      by_cases hb2 : su_b2 a = true
      · rw [if_pos hb2, if_pos hb2]
        exact treeFind_write_self _ _ _
      · rw [if_neg hb2, if_neg hb2]
        by_cases hb1 : su_b1 g = true
        · rw [if_pos hb1, treeFind_write_other _ _ _ _ hpg]
          exact ha
        · rw [if_neg hb1]
          exact ha
    rw [migrate_su_group_reduce _ (su_tree t0 g a) _ _ href2 hg2 ha2]
    have hb1' : su_b1 (if su_b1 g then su_new g else g) = false := by
      by_cases hb1 : su_b1 g = true
      · rw [if_pos hb1, su_b1, su_new, niu_su_no_contains, Bool.false_and]
      · rw [if_neg hb1]
        rw [Bool.not_eq_true] at hb1
        exact hb1
    have hb2' : su_b2 (if su_b2 a then su_new a else a) = false := by
      by_cases hb2 : su_b2 a = true
      · rw [if_pos hb2, su_b2, su_new]
        exact niu_su_no_contains a
      · rw [if_neg hb2]
        rw [Bool.not_eq_true] at hb2
        exact hb2
    rw [hb1', hb2']
    simp
  · rw [if_neg hd]
    have href2 : refLookup (⟨w.refs, t0⟩ : World) meta_config = some t0 := href
    rw [migrate_su_group_reduce _ t0 g a href2 hg ha]
    rw [Bool.not_eq_true] at hd
    rw [hd]
    simp

theorem migrate_idem (sha1sum : Hash) (wp wu : World) (t0 : Tree)
    (href : refLookup wu meta_external_ids = some t0)
    (hnd : (treePaths t0).Nodup)
    (hfresh : target_fresh sha1sum scheme_username scheme_gerrit t0 = true)
    (hinj : target_inj sha1sum scheme_username scheme_gerrit t0 = true) :
    ((migrate sha1sum (migrate sha1sum wp wu).1 (migrate sha1sum wp wu).2.1).1).refs
        = ((migrate sha1sum wp wu).1).refs
    ∧ ((migrate sha1sum (migrate sha1sum wp wu).1 (migrate sha1sum wp wu).2.1).2.1).refs
        = ((migrate sha1sum wp wu).2.1).refs := by
  constructor
  · rw [migrate_fst sha1sum (migrate sha1sum wp wu).1 (migrate sha1sum wp wu).2.1,
      migrate_fst sha1sum wp wu]
    show refSet (refSet wp.refs meta_config (git_config_admin_push wp.tree)) meta_config
        (git_config_admin_push (git_config_admin_push wp.tree))
      = refSet wp.refs meta_config (git_config_admin_push wp.tree)
    rw [git_config_admin_push_idem]
    exact refSet_same _ [] _ _
      (refLookup_set_self wp.refs [] meta_config (git_config_admin_push wp.tree))
  · by_cases ht0 : t0 = []
    · rw [migrate_snd_nil sha1sum wp wu t0 href ht0]
      have href2 : refLookup { wu with tree := t0 } meta_external_ids = some t0 := href
      rw [migrate_snd_nil sha1sum _ _ t0 href2 ht0]
    · rw [migrate_snd sha1sum wp wu t0 href ht0]
      have hF : (treePaths t0).foldl
            (fun t fp => create_gerrit_external_id sha1sum t fp) t0
          = t0 ++ t0.filterMap (rewrite_target sha1sum scheme_username scheme_gerrit) :=
        rewrite_round1 sha1sum scheme_username scheme_gerrit t0 hnd hfresh hinj
      have href2 : refLookup (⟨refSet wu.refs meta_external_ids
            ((treePaths t0).foldl (fun t fp => create_gerrit_external_id sha1sum t fp) t0),
          (treePaths t0).foldl (fun t fp => create_gerrit_external_id sha1sum t fp) t0⟩
            : World) meta_external_ids
          = some ((treePaths t0).foldl
              (fun t fp => create_gerrit_external_id sha1sum t fp) t0) :=
        refLookup_set_self wu.refs _ meta_external_ids _
      have hFne : (treePaths t0).foldl
          (fun t fp => create_gerrit_external_id sha1sum t fp) t0 ≠ [] := by
        rw [hF]
        intro hco
        exact ht0 (List.append_eq_nil.1 hco).1
      rw [migrate_snd sha1sum _ _ _ href2 hFne]
      have hF2 : (treePaths ((treePaths t0).foldl
            (fun t fp => create_gerrit_external_id sha1sum t fp) t0)).foldl
            (fun t fp => create_gerrit_external_id sha1sum t fp)
            ((treePaths t0).foldl (fun t fp => create_gerrit_external_id sha1sum t fp) t0)
          = (treePaths t0).foldl (fun t fp => create_gerrit_external_id sha1sum t fp) t0 := by
        rw [hF]
        exact rewrite_round2 sha1sum scheme_username scheme_gerrit t0 hnd hfresh hinj
          trigfree_username_gerrit
      show refSet (refSet wu.refs meta_external_ids _) meta_external_ids _
          = refSet wu.refs meta_external_ids _
      rw [hF2]
      exact refSet_same _ [] _ _ (refLookup_set_self wu.refs [] meta_external_ids _)

theorem migrate_to_keycloak_idem (sha1sum : Hash) (wu : World) (t0 : Tree)
    (href : refLookup wu meta_external_ids = some t0)
    (hnd : (treePaths t0).Nodup)
    (hfresh : target_fresh sha1sum scheme_gerrit scheme_keycloak t0 = true)
    (hinj : target_inj sha1sum scheme_gerrit scheme_keycloak t0 = true) :
    ((migrate_to_keycloak sha1sum (migrate_to_keycloak sha1sum wu).1).1).refs
      = ((migrate_to_keycloak sha1sum wu).1).refs := by
  by_cases ht0 : t0 = []
  · rw [migrate_to_keycloak_fst_nil sha1sum wu t0 href ht0]
    have href2 : refLookup { wu with tree := t0 } meta_external_ids = some t0 := href
    rw [migrate_to_keycloak_fst_nil sha1sum _ t0 href2 ht0]
  · rw [migrate_to_keycloak_fst sha1sum wu t0 href ht0]
    have hF : (treePaths t0).foldl
          (fun t fp => gerrit_to_kc_external_id sha1sum t fp) t0
        = t0 ++ t0.filterMap (rewrite_target sha1sum scheme_gerrit scheme_keycloak) :=
      rewrite_round1 sha1sum scheme_gerrit scheme_keycloak t0 hnd hfresh hinj
    have href2 : refLookup (⟨refSet wu.refs meta_external_ids
          ((treePaths t0).foldl (fun t fp => gerrit_to_kc_external_id sha1sum t fp) t0),
        (treePaths t0).foldl (fun t fp => gerrit_to_kc_external_id sha1sum t fp) t0⟩
          : World) meta_external_ids
        = some ((treePaths t0).foldl
            (fun t fp => gerrit_to_kc_external_id sha1sum t fp) t0) :=
      refLookup_set_self wu.refs _ meta_external_ids _
    have hFne : (treePaths t0).foldl
        (fun t fp => gerrit_to_kc_external_id sha1sum t fp) t0 ≠ [] := by
      rw [hF]
      intro hco
      exact ht0 (List.append_eq_nil.1 hco).1
    rw [migrate_to_keycloak_fst sha1sum _ _ href2 hFne]
    have hF2 : (treePaths ((treePaths t0).foldl
          (fun t fp => gerrit_to_kc_external_id sha1sum t fp) t0)).foldl
          (fun t fp => gerrit_to_kc_external_id sha1sum t fp)
          ((treePaths t0).foldl (fun t fp => gerrit_to_kc_external_id sha1sum t fp) t0)
        = (treePaths t0).foldl (fun t fp => gerrit_to_kc_external_id sha1sum t fp) t0 := by
      rw [hF]
      exact rewrite_round2 sha1sum scheme_gerrit scheme_keycloak t0 hnd hfresh hinj
        trigfree_gerrit_keycloak
    show refSet (refSet wu.refs meta_external_ids _) meta_external_ids _
        = refSet wu.refs meta_external_ids _
    rw [hF2]
    exact refSet_same _ [] _ _ (refLookup_set_self wu.refs [] meta_external_ids _)

/-- All-Projects tree whose `project.config` already carries the admin push
entry, for the C9 counterexample. -/
def c9pt : Tree := [(project_config_path, admin_push_entry)]

/-- All-Projects clone state for the C9 counterexample: the remote
`refs/meta/config` already holds exactly the tree the migration will push. -/
def c9wp : World := ⟨[(meta_config, c9pt)], c9pt⟩

/-- All-Users external-ids tree with one identity file already in the
keycloak scheme (no `username:` header), for the C9 counterexample. -/
def c9t : Tree := [(["x".toList], external_id_header scheme_keycloak "bob".toList)]

/-- All-Users clone state for the C9 counterexample. -/
def c9wu : World := ⟨[(meta_external_ids, c9t)], []⟩

/-- C9, counterexample to the claim as stated: on a store whose
`project.config` already contains the admin push rule and whose single
external-id file is already in the new scheme, `migrate` performs TWO
commit+push effects (one on `refs/meta/config`, one on
`refs/meta/external-ids`) — not at most one — and both commits happen even
though no file changed: the pushed snapshots equal the previous ones on both
remotes. -/
theorem C9_two_commits_counterexample :
    (migrate hashId c9wp c9wu).2.2
        = [Eff.commitPush meta_config, Eff.commitPush meta_external_ids]
    ∧ ((migrate hashId c9wp c9wu).1).refs = c9wp.refs
    ∧ ((migrate hashId c9wp c9wu).2.1).refs = c9wu.refs := by
  refine ⟨by decide, by decide, by decide⟩

/-- C9 (amended): `migrate` performs exactly two commit+pushes when at least
one external-id file exists and one otherwise — the All-Projects config
commit is unconditional, and the All-Users external-ids commit is keyed on
the mere existence of external-id files, not on any file changing;
`migrate_to_keycloak` (cauth-to-keycloak) performs at most one commit+push,
likewise keyed on existence; `migrate_su_group` (migrate-group-su) performs
at most one commit+push and commits only when the content of `groups` or
`project.config` actually changed. Each operation is idempotent: a second
run pushes identical snapshots, leaving every remote ref (hence every
file's content) unchanged, and a second `migrate_su_group` run does not
commit at all. Hypotheses: the migrated stores exist on their remotes, the
external-id listings have no duplicate paths, and the hashed target paths
of the rewrites are fresh and collision-free. -/
theorem C9_migration_amended (sha1sum : Hash) (wp wu wk w : World)
    (t0 tk tc : Tree) (g a : List Char)
    (href_u : refLookup wu meta_external_ids = some t0)
    (hnd : (treePaths t0).Nodup)
    (hfresh : target_fresh sha1sum scheme_username scheme_gerrit t0 = true)
    (hinj : target_inj sha1sum scheme_username scheme_gerrit t0 = true)
    (href_k : refLookup wk meta_external_ids = some tk)
    (hndk : (treePaths tk).Nodup)
    (hfreshk : target_fresh sha1sum scheme_gerrit scheme_keycloak tk = true)
    (hinjk : target_inj sha1sum scheme_gerrit scheme_keycloak tk = true)
    (href_c : refLookup w meta_config = some tc)
    (hg : treeFind tc groups_path = some g)
    (ha : treeFind tc project_config_path = some a) :
    (migrate sha1sum wp wu).2.2
        = (if t0 = [] then [Eff.commitPush meta_config]
           else [Eff.commitPush meta_config, Eff.commitPush meta_external_ids])
    ∧ (migrate_to_keycloak sha1sum wk).2
        = (if tk = [] then [] else [Eff.commitPush meta_external_ids])
    ∧ (migrate_su_group w).2.1.length ≤ 1
    ∧ ((migrate_su_group w).2.1 ≠ [] →
        ∃ p c c', treeFind tc p = some c
          ∧ treeFind ((migrate_su_group w).1).tree p = some c' ∧ c' ≠ c)
    ∧ ((migrate sha1sum (migrate sha1sum wp wu).1 (migrate sha1sum wp wu).2.1).1).refs
        = ((migrate sha1sum wp wu).1).refs
    ∧ ((migrate sha1sum (migrate sha1sum wp wu).1 (migrate sha1sum wp wu).2.1).2.1).refs
        = ((migrate sha1sum wp wu).2.1).refs
    ∧ ((migrate_to_keycloak sha1sum (migrate_to_keycloak sha1sum wk).1).1).refs
        = ((migrate_to_keycloak sha1sum wk).1).refs
    ∧ ((migrate_su_group (migrate_su_group w).1).1).refs = ((migrate_su_group w).1).refs
    ∧ (migrate_su_group (migrate_su_group w).1).2.1 = [] := by
  have hlu : (list_external_ids wu).2 = t0 := by
    rw [list_external_ids_of_ref wu t0 href_u]
  have hlk : (list_external_ids wk).2 = tk := by
    rw [list_external_ids_of_ref wk tk href_k]
  have hsu := migrate_su_group_commit_changed w tc g a href_c hg ha
  have hsui := migrate_su_group_idem w tc g a href_c hg ha
  have hmi := migrate_idem sha1sum wp wu t0 href_u hnd hfresh hinj
  have hki := migrate_to_keycloak_idem sha1sum wk tk href_k hndk hfreshk hinjk
  refine ⟨?_, ?_, hsu.1, hsu.2, hmi.1, hmi.2, hki, hsui.1, hsui.2.1⟩
  · rw [migrate_effects, hlu]
  · rw [migrate_to_keycloak_effects, hlk]

/-- All-Users external-ids tree with one identity file in the gerrit scheme,
whose keycloak rewrite does fire, for the C9 witness. -/
def c9tk : Tree := [(["f1".toList], external_id_header scheme_gerrit "bob".toList)]

/-- All-Users clone state with the gerrit-scheme store, for the C9 witness. -/
def c9wk : World := ⟨[(meta_external_ids, c9tk)], []⟩

/-- The `refs/meta/config` tree of the `migrate_su_group` target, with a
`groups` file naming `Non-Interactive Users`, for the C9 witness. -/
def c9tc : Tree := [(groups_path, niu_str), (project_config_path, "x".toList)]

/-- Clone state of the `migrate_su_group` target, for the C9 witness. -/
def c9wc : World := ⟨[(meta_config, c9tc)], []⟩

/-- C9 witness: the amended theorem applied at concrete stores, every
hypothesis discharged by evaluation. -/
theorem C9_migration_amended_witness :
    refLookup c9wu meta_external_ids = some c9t
    ∧ (treePaths c9t).Nodup
    ∧ target_fresh hashId scheme_username scheme_gerrit c9t = true
    ∧ target_inj hashId scheme_username scheme_gerrit c9t = true
    ∧ refLookup c9wk meta_external_ids = some c9tk
    ∧ (treePaths c9tk).Nodup
    ∧ target_fresh hashId scheme_gerrit scheme_keycloak c9tk = true
    ∧ target_inj hashId scheme_gerrit scheme_keycloak c9tk = true
    ∧ refLookup c9wc meta_config = some c9tc
    ∧ treeFind c9tc groups_path = some niu_str
    ∧ treeFind c9tc project_config_path = some ("x".toList)
    ∧ (migrate hashId c9wp c9wu).2.2
        = [Eff.commitPush meta_config, Eff.commitPush meta_external_ids]
    ∧ (migrate_su_group (migrate_su_group c9wc).1).2.1 = [] := by
  refine ⟨by decide, by decide, by decide, by decide, by decide, by decide, by decide,
    by decide, by decide, by decide, by decide, ?_, ?_⟩
  · have h := C9_migration_amended hashId c9wp c9wu c9wk c9wc c9t c9tk c9tc niu_str
      ("x".toList) (by decide) (by decide) (by decide) (by decide) (by decide)
      (by decide) (by decide) (by decide) (by decide) (by decide) (by decide)
    rw [h.1, if_neg (by decide : ¬ (c9t = []))]
  · exact (C9_migration_amended hashId c9wp c9wu c9wk c9wc c9t c9tk c9tc niu_str
      ("x".toList) (by decide) (by decide) (by decide) (by decide) (by decide)
      (by decide) (by decide) (by decide) (by decide) (by decide)
      (by decide)).2.2.2.2.2.2.2.2
